import Mathlib

/-!
Verification of the reorganization planner of `anime-file-manager`
(`src/pages/ImportPage.tsx`), shallowly embedded in Lean.

The planner (`applyMetadata`, `extractSubtitleSuffix`, and the folder
construction inside `processFiles`) is pure string/list manipulation, so it
is embedded directly.  JavaScript primitives are modelled as follows:

* `String.prototype.replace(pat, repl)` with a string pattern replaces only
  the first occurrence: `replaceFirst`.
* `String.prototype.replace(/\s+/g, ' ')` followed by `.trim()`:
  `collapseWsS` / `jsTrimS`, with `\s` restricted to the ASCII whitespace
  characters that can occur here.
* `Number.prototype.toString()` on the natural numbers the code produces:
  `natToString` (decimal rendering).
* `String.prototype.padStart(w, '0')`: `padStart0`.
* `a.localeCompare(b)` (used only as a sort comparator on file names) is
  modelled as case-sensitive code-point lexicographic comparison
  (`nameLe`); `Array.prototype.sort` is stable, modelled by a stable
  insertion sort (`sortByLe`).
* JS truthiness on optional numbers / strings: `natTruthy`, `natOr`,
  `strOr` (0, `""`, `undefined` are falsy).
-/

/-! ## JavaScript string primitives -/

/-- The whitespace characters matched by the JS regex class `\s` that are
representable in the ASCII range used by the code. -/
def isJsSpace (c : Char) : Bool :=
  c == ' ' || c == '\t' || c == '\n' || c == '\r' || c == '\x0b' || c == '\x0c'

/-- `isPrefixChars p l` holds when `p` is a prefix of `l`. -/
def isPrefixChars : List Char → List Char → Bool
  | [], _ => true
  | _ :: _, [] => false
  | p :: ps, c :: cs => p == c && isPrefixChars ps cs

/-- Replace the first occurrence of `pat` in the character list, as
`String.prototype.replace` does with a string pattern. -/
def listReplaceFirst (pat repl : List Char) : List Char → List Char
  | [] => []
  | c :: cs =>
    if isPrefixChars pat (c :: cs) then repl ++ (c :: cs).drop pat.length
    else c :: listReplaceFirst pat repl cs

/-- `s.replace(pat, repl)` for a string pattern (first occurrence only). -/
def replaceFirst (s pat repl : String) : String :=
  String.mk (listReplaceFirst pat.data repl.data s.data)

/-- One pass of `.replace(/\s+/g, ' ')`: every maximal run of whitespace
becomes a single `' '`.  `prevSpace` records whether the previous input
character was part of a whitespace run already emitted. -/
def collapseWsAux (prevSpace : Bool) : List Char → List Char
  | [] => []
  | c :: cs =>
    if isJsSpace c then
      if prevSpace then collapseWsAux true cs
      else ' ' :: collapseWsAux true cs
    else c :: collapseWsAux false cs

/-- `s.replace(/\s+/g, ' ')`. -/
def collapseWsS (s : String) : String :=
  String.mk (collapseWsAux false s.data)

/-- `l` with trailing JS whitespace removed. -/
def dropTrailingWs (l : List Char) : List Char :=
  (l.reverse.dropWhile isJsSpace).reverse

/-- `s.trim()`. -/
def jsTrimS (s : String) : String :=
  String.mk (dropTrailingWs (s.data.dropWhile isJsSpace))

/-- The decimal digit character for `d` (defined for `d < 10`; larger
arguments never occur because it is always applied to `n % 10`). -/
def digitChar (d : Nat) : Char :=
  if d = 0 then '0' else if d = 1 then '1' else if d = 2 then '2'
  else if d = 3 then '3' else if d = 4 then '4' else if d = 5 then '5'
  else if d = 6 then '6' else if d = 7 then '7' else if d = 8 then '8' else '9'

/-- Decimal digits of `n`, most significant first; `fuel` bounds the
recursion (`n + 1` always suffices). -/
def natToCharsAux : Nat → Nat → List Char
  | 0, _ => []
  | fuel + 1, n =>
    if n < 10 then [digitChar n]
    else natToCharsAux fuel (n / 10) ++ [digitChar (n % 10)]

/-- `n.toString()` for the natural numbers produced by the code. -/
def natToString (n : Nat) : String :=
  String.mk (natToCharsAux (n + 1) n)

/-- `s.padStart(w, '0')`. -/
def padStart0 (w : Nat) (s : String) : String :=
  if w ≤ s.length then s
  else String.mk (List.replicate (w - s.length) '0') ++ s

/-- Code-point lexicographic `≤` on character lists. -/
def charListLe : List Char → List Char → Bool
  | [], _ => true
  | _ :: _, [] => false
  | a :: as, b :: bs =>
    if a.toNat < b.toNat then true
    else if b.toNat < a.toNat then false
    else charListLe as bs

/-- The sort order used on display names: `a.localeCompare(b) <= 0`,
modelled as code-point lexicographic comparison. -/
def nameLe (a b : String) : Bool := charListLe a.data b.data

/-- `filename.split('.')`, keeping empty segments, as in JavaScript. -/
def splitOnDot : List Char → List (List Char)
  | [] => [[]]
  | c :: cs =>
    let r := splitOnDot cs
    if c == '.' then [] :: r
    else
      match r with
      | [] => [[c]]
      | h :: t => (c :: h) :: t

/-- `s.endsWith(suf)`. -/
def strEndsWith (s suf : String) : Bool :=
  isPrefixChars suf.data.reverse s.data.reverse

/-- JS truthiness of an optional number (`undefined` and `0` are falsy). -/
def natTruthy : Option Nat → Bool
  | some n => n != 0
  | none => false

/-- `a || b` where `a` is an optional number (`undefined`/`0` falsy). -/
def natOr (a : Option Nat) (b : Nat) : Nat :=
  match a with
  | some n => if n = 0 then b else n
  | none => b

/-- `a || b` where `a` is an optional string (`undefined`/`""` falsy). -/
def strOr (a : Option String) (b : String) : String :=
  match a with
  | some s => if s = "" then b else s
  | none => b

/-! ## Data model (the TypeScript interfaces of `ImportPage.tsx`) -/

/-- `interface ParsedFilename` — the parse hint attached by the external
filename parser. -/
structure ParsedFilename where
  anime_title : String
  episode_number : Option Nat := none
  season : Option Nat := none
  group : Option String := none
  resolution : Option String := none
  video_codec : Option String := none
  audio_codec : Option String := none
deriving Repr, DecidableEq

/-- `interface AnimeInfo` — the metadata the planner stamps on a file. -/
structure AnimeInfo where
  title : String
  title_romaji : Option String := none
  title_english : Option String := none
  episode : Option Nat := none
  season : Option Nat := none
  year : Option Nat := none
  format : Option String := none
deriving Repr, DecidableEq

/-- The `title` object of `interface AniListResponse`. -/
structure AniListTitle where
  romaji : Option String := none
  english : Option String := none
  native : Option String := none
deriving Repr, DecidableEq

/-- `interface AniListResponse` — a metadata candidate (cover art is
irrelevant to the planner and omitted). -/
structure AniListResponse where
  id : Nat
  title : AniListTitle
  format : Option String := none
  episodes : Option Nat := none
  season_year : Option Nat := none
deriving Repr, DecidableEq

/-- `interface FileInfo` — one file of the working set. -/
structure FileInfo where
  path : String
  name : String
  size : Nat
  file_type : String
  is_video : Bool
  is_subtitle : Bool
  parsed : Option ParsedFilename := none
  metadata : Option AnimeInfo := none
  new_name : Option String := none
deriving Repr, DecidableEq

/-! ## Filename scans and the subtitle suffix classifier -/

/-- Fold decimal digit characters into a number (`parseInt` on an all-digit
capture). -/
def digitsToNat (ds : List Char) : Nat :=
  ds.foldl (fun n c => n * 10 + (c.toNat - 48)) 0

/-- `name.match(/[Ss](\d+)/)`: the digits after the first `S`/`s` that is
immediately followed by at least one digit. -/
def seasonScan : List Char → Option Nat
  | [] => none
  | c :: cs =>
    if c == 'S' || c == 's' then
      let ds := cs.takeWhile Char.isDigit
      if ds.isEmpty then seasonScan cs else some (digitsToNat ds)
    else seasonScan cs

/-- `seasonScan` on a string. -/
def seasonScanName (s : String) : Option Nat := seasonScan s.data

/-- `name.match(/\[([^\]]+)\]/)`: the contents of the first bracketed token. -/
def groupScan : List Char → Option String
  | [] => none
  | c :: cs =>
    if c == '[' then
      let inner := cs.takeWhile (fun d => d != ']')
      if inner.isEmpty then groupScan cs
      else if (cs.dropWhile (fun d => d != ']')).isEmpty then groupScan cs
      else some (String.mk inner)
    else groupScan cs

/-- `groupScan` on a string. -/
def groupScanName (s : String) : Option String := groupScan s.data

/-- `extractSubtitleSuffix` (ImportPage.tsx:472-479): split on `.`; with at
least 3 segments return the second-to-last, else `""`. -/
def extractSubtitleSuffix (filename : String) : String :=
  let parts := (splitOnDot filename.data).map String.mk
  if 3 ≤ parts.length then parts.getD (parts.length - 2) "" else ""

/-- The grouping key actually used: `suffix || 'default'`
(ImportPage.tsx:502). -/
def classifyKey (filename : String) : String :=
  let s := extractSubtitleSuffix filename
  if s = "" then "default" else s

/-! ## The planner (`applyMetadata`, ImportPage.tsx:482-717) -/

/-- Pair every element with its array index, starting at `n` (the
`(file, originalIndex)` wrappers built by `map((file, i) => ...)`, and the
loop counters of the `forEach` calls). -/
def enumFrom {α : Type} (n : Nat) : List α → List (Nat × α)
  | [] => []
  | f :: fs => (n, f) :: enumFrom (n + 1) fs

/-- Stable insertion into a `le`-sorted list: the new element goes before
the first element it compares `le` to. -/
def insertByLe (le : Nat × FileInfo → Nat × FileInfo → Bool)
    (a : Nat × FileInfo) : List (Nat × FileInfo) → List (Nat × FileInfo)
  | [] => [a]
  | b :: bs => if le a b then a :: b :: bs else b :: insertByLe le a bs

/-- Stable sort (models the stable `Array.prototype.sort`). -/
def sortByLe (le : Nat × FileInfo → Nat × FileInfo → Bool) :
    List (Nat × FileInfo) → List (Nat × FileInfo)
  | [] => []
  | a :: as => insertByLe le a (sortByLe le as)

/-- The comparator `(a, b) => a.file.name.localeCompare(b.file.name)` as a
`≤` test. -/
def pairLe (a b : Nat × FileInfo) : Bool := nameLe a.2.name b.2.name

/-- The video files with their original indexes, sorted by display name
(ImportPage.tsx:486-489). -/
def videoPairs (files : List FileInfo) : List (Nat × FileInfo) :=
  sortByLe pairLe ((enumFrom 0 files).filter (fun p => p.2.is_video))

/-- The subtitle files with their original indexes, in original order
(ImportPage.tsx:492-498). -/
def subPairs (files : List FileInfo) : List (Nat × FileInfo) :=
  (enumFrom 0 files).filter (fun p => p.2.is_subtitle)

/-- Append `it` to the bucket of `key`, creating the bucket at the end on
first use (JS object property insertion order). -/
def addToGroups (key : String) (it : Nat × FileInfo) :
    List (String × List (Nat × FileInfo)) → List (String × List (Nat × FileInfo))
  | [] => [(key, [it])]
  | (k, items) :: rest =>
    if k = key then (k, items ++ [it]) :: rest
    else (k, items) :: addToGroups key it rest

/-- Subtitle files grouped by `suffix || 'default'`
(ImportPage.tsx:500-508). -/
def subtitleGroups (files : List FileInfo) : List (String × List (Nat × FileInfo)) :=
  (subPairs files).foldl (fun gs p => addToGroups (classifyKey p.2.name) p gs) []

/-- Each subtitle group sorted by display name (ImportPage.tsx:510-513). -/
def sortedSubtitleGroups (files : List FileInfo) :
    List (String × List (Nat × FileInfo)) :=
  (subtitleGroups files).map (fun g => (g.1, sortByLe pairLe g.2))

/-- Per-file season source: the parse hint's `season` when a hint exists
(even if that field is absent), otherwise the `S<digits>` filename scan
(ImportPage.tsx:524-532). -/
def seasonOf (f : FileInfo) : Option Nat :=
  match f.parsed with
  | some pr => pr.season
  | none => seasonScanName f.name

/-- Per-file release-group source: the parse hint's `group` when a hint
exists, otherwise the first bracketed token of the filename
(ImportPage.tsx:524-543). -/
def groupOf (f : FileInfo) : Option String :=
  match f.parsed with
  | some pr => pr.group
  | none => groupScanName f.name

/-- `animeData.title.romaji || animeData.title.english ||
animeData.title.native || "Unknown"`. -/
def animeTitleOf (d : AniListResponse) : String :=
  strOr d.title.romaji (strOr d.title.english (strOr d.title.native "Unknown"))

/-- The `AnimeInfo` record stamped on a processed file
(ImportPage.tsx:546-554). -/
def mkAnimeInfo (d : AniListResponse) (episodeNumber : Nat)
    (seasonNumber : Option Nat) : AnimeInfo :=
  { title := animeTitleOf d
    title_romaji := d.title.romaji
    title_english := d.title.english
    episode := some episodeNumber
    season := some (natOr seasonNumber 1)
    year := d.season_year
    format := d.format }

/-- The string substituted for `{season}` (`if (seasonNumber)` is JS
truthiness, so both `undefined` and `0` yield `"1"`). -/
def seasonStr (sn : Option Nat) : String :=
  match sn with
  | some s => if s = 0 then "1" else natToString s
  | none => "1"

/-- The string substituted for `{year}`. -/
def yearStr (y : Option Nat) : String :=
  match y with
  | some v => if v = 0 then "" else natToString v
  | none => ""

/-- The string substituted for `{group}`. -/
def groupStr (g : Option String) : String :=
  match g with
  | some s => s
  | none => ""

/-- The placeholder-substitution chain of `applyMetadata`
(ImportPage.tsx:559-587): sequential first-occurrence replacements, then
whitespace collapsing and trimming. -/
def genBaseName (tmpl : String) (d : AniListResponse) (ep : Nat)
    (sn : Option Nat) (grp : Option String) : String :=
  let t0 := animeTitleOf d
  let n := replaceFirst tmpl "{title}" t0
  let n := replaceFirst n "{title_romaji}" (strOr d.title.romaji t0)
  let n := replaceFirst n "{title_english}" (strOr d.title.english t0)
  let n := replaceFirst n "{episode}" (padStart0 2 (natToString ep))
  let n := replaceFirst n "{episode:02}" (padStart0 2 (natToString ep))
  let n := replaceFirst n "{episode:03}" (padStart0 3 (natToString ep))
  let n := replaceFirst n "{season}" (seasonStr sn)
  let n := replaceFirst n "{year}" (yearStr d.season_year)
  let n := replaceFirst n "{group}" (groupStr grp)
  jsTrimS (collapseWsS n)

/-- Extension handling for videos (ImportPage.tsx:590-593): substitute
`{ext}`, then append `.<ext>` unless already present. -/
def addExt (n ft : String) : String :=
  let n := replaceFirst n "{ext}" ft
  if strEndsWith n ("." ++ ft) then n else n ++ "." ++ ft

/-- Extension handling for subtitles (ImportPage.tsx:672-681): for a real
suffix group, `{ext}` first becomes `<suffix>.{ext}`. -/
def addSubExt (n key ft : String) : String :=
  let n :=
    if key ≠ "" ∧ key ≠ "default" then replaceFirst n "{ext}" (key ++ ".{ext}")
    else n
  addExt n ft

/-- Processing of one video file at sorted position `sortedIndex`
(ImportPage.tsx:516-596). -/
def processVideo (d : AniListResponse) (tmpl : String) (f : FileInfo)
    (sortedIndex : Nat) : FileInfo :=
  let ep := sortedIndex + 1
  let sn := seasonOf f
  let grp := groupOf f
  { f with
    metadata := some (mkAnimeInfo d ep sn)
    new_name := some (addExt (genBaseName tmpl d ep sn grp) f.file_type) }

/-- Processing of one subtitle file of group `key` at in-group position
`groupIndex` (ImportPage.tsx:600-686); the template is
`fileNameTemplate + subtitleSuffix`. -/
def processSubtitle (d : AniListResponse) (tmpl subSuffix key : String)
    (f : FileInfo) (groupIndex : Nat) : FileInfo :=
  let ep := groupIndex + 1
  let sn := seasonOf f
  let grp := groupOf f
  { f with
    metadata := some (mkAnimeInfo d ep sn)
    new_name := some (addSubExt (genBaseName (tmpl ++ subSuffix) d ep sn grp) key f.file_type) }

/-- The `updatedFiles[originalIndex] = ...` assignments produced by the
video loop, in execution order. -/
def videoWrites (files : List FileInfo) (d : AniListResponse)
    (tmpl : String) : List (Nat × FileInfo) :=
  (enumFrom 0 (videoPairs files)).map
    (fun q => (q.2.1, processVideo d tmpl q.2.2 q.1))

/-- The assignments produced for one subtitle group. -/
def groupWrites (d : AniListResponse) (tmpl subSuffix : String)
    (g : String × List (Nat × FileInfo)) : List (Nat × FileInfo) :=
  (enumFrom 0 g.2).map
    (fun q => (q.2.1, processSubtitle d tmpl subSuffix g.1 q.2.2 q.1))

/-- The assignments produced by the subtitle loops, in execution order. -/
def subtitleWrites (files : List FileInfo) (d : AniListResponse)
    (tmpl subSuffix : String) : List (Nat × FileInfo) :=
  ((sortedSubtitleGroups files).map (groupWrites d tmpl subSuffix)).flatten

/-- All index assignments of one `applyMetadata` call, in execution
order: videos first, then the subtitle groups. -/
def allWrites (files : List FileInfo) (d : AniListResponse)
    (tmpl subSuffix : String) : List (Nat × FileInfo) :=
  videoWrites files d tmpl ++ subtitleWrites files d tmpl subSuffix

/-- Execute a list of index assignments on a list. -/
def setFold (L : List FileInfo) (W : List (Nat × FileInfo)) : List FileInfo :=
  W.foldl (fun acc w => acc.set w.1 w.2) L

/-- `applyMetadata(animeData)` over the working file set
(ImportPage.tsx:482-717): the pure state transformation `files ↦
updatedFiles` (toasts and the `setFiles` call are UI side channels). -/
def applyMetadata (files : List FileInfo) (d : AniListResponse)
    (tmpl subSuffix : String) : List FileInfo :=
  setFold files (allWrites files d tmpl subSuffix)

/-- The anime-folder name resolution inside `processFiles`
(ImportPage.tsx:784-795): title substitutions, then either `{year}`
substitution or removal of the literal `" ({year})"` / `"({year})"`
fragments. -/
def buildAnimeFolder (folderTemplate : String) (info : AnimeInfo) : String :=
  let n := replaceFirst folderTemplate "{title}" info.title
  let n := replaceFirst n "{title_romaji}" (strOr info.title_romaji info.title)
  let n := replaceFirst n "{title_english}" (strOr info.title_english info.title)
  if natTruthy info.year then replaceFirst n "{year}" (natToString (natOr info.year 0))
  else replaceFirst (replaceFirst n " ({year})" "") "({year})" ""

/-! ## Lemmas: the write fold -/

/-- The last assignment targeting index `j` in a write list (later entries
of `W` are executed later and win). -/
def lastWriteAt (W : List (Nat × FileInfo)) (j : Nat) : Option FileInfo :=
  match W with
  | [] => none
  | w :: rest =>
    match lastWriteAt rest j with
    | some v => some v
    | none => if w.1 = j then some w.2 else none

theorem setFold_cons (L : List FileInfo) (w : Nat × FileInfo)
    (W : List (Nat × FileInfo)) :
    setFold L (w :: W) = setFold (L.set w.1 w.2) W := rfl

theorem length_setFold (W : List (Nat × FileInfo)) (L : List FileInfo) :
    (setFold L W).length = L.length := by
  induction W generalizing L with
  | nil => rfl
  | cons w W ih => rw [setFold_cons, ih, List.length_set]

theorem getq_set_eq (L : List FileInfo) (j : Nat) (v : FileInfo) :
    (L.set j v)[j]? = if j < L.length then some v else none := by
  induction L generalizing j with
  | nil => simp
  | cons a as ih =>
    cases j with
    | zero => simp
    | succ k => simpa [Nat.succ_lt_succ_iff] using ih k

theorem getq_set_ne (L : List FileInfo) (i j : Nat) (v : FileInfo)
    (h : i ≠ j) : (L.set i v)[j]? = L[j]? := by
  induction L generalizing i j with
  | nil => simp
  | cons a as ih =>
    cases i with
    | zero => cases j with
      | zero => exact absurd rfl h
      | succ m => simp
    | succ k => cases j with
      | zero => simp
      | succ m => simpa using ih k m (by omega)

theorem lwa_cons (w : Nat × FileInfo) (W : List (Nat × FileInfo)) (j : Nat) :
    lastWriteAt (w :: W) j =
      (lastWriteAt W j).elim (if w.1 = j then some w.2 else none) some := by
  cases h : lastWriteAt W j <;> simp [lastWriteAt, h]

theorem getq_setFold (W : List (Nat × FileInfo)) (L : List FileInfo)
    (j : Nat) :
    (setFold L W)[j]? =
      (lastWriteAt W j).elim L[j]?
        (fun v => if j < L.length then some v else none) := by
  induction W generalizing L with
  | nil => rfl
  | cons w W ih =>
    rw [setFold_cons, ih, lwa_cons]
    cases hW : lastWriteAt W j with
    | some v => simp [List.length_set]
    | none =>
      by_cases hw : w.1 = j
      · subst hw
        simp [getq_set_eq]
      · simp [hw, getq_set_ne L w.1 j w.2 hw]

theorem lwa_append (A B : List (Nat × FileInfo)) (j : Nat) :
    lastWriteAt (A ++ B) j =
      (lastWriteAt B j).elim (lastWriteAt A j) some := by
  induction A with
  | nil =>
    rw [List.nil_append]
    cases h : lastWriteAt B j <;> simp [h, lastWriteAt]
  | cons w A ih =>
    rw [List.cons_append, lwa_cons, ih, lwa_cons]
    cases lastWriteAt B j <;> cases lastWriteAt A j <;> simp

theorem lwa_eq_none (W : List (Nat × FileInfo)) (j : Nat)
    (h : ∀ w ∈ W, w.1 ≠ j) : lastWriteAt W j = none := by
  induction W with
  | nil => rfl
  | cons w W ih =>
    rw [lwa_cons, ih (fun x hx => h x (List.mem_cons_of_mem w hx))]
    simp [h w (List.mem_cons_self w W)]

theorem lwa_mem (W : List (Nat × FileInfo)) (j : Nat) (v : FileInfo)
    (h : lastWriteAt W j = some v) : (j, v) ∈ W := by
  induction W with
  | nil => exact absurd h (by simp [lastWriteAt])
  | cons w W ih =>
    rw [lwa_cons] at h
    cases hW : lastWriteAt W j with
    | some v' =>
      rw [hW] at h
      simp only [Option.elim_some] at h
      cases h
      exact List.mem_cons_of_mem w (ih hW)
    | none =>
      rw [hW] at h
      simp only [Option.elim_none] at h
      by_cases hw : w.1 = j
      · rw [if_pos hw] at h
        have hv : w.2 = v := Option.some.inj h
        have hw2 : (j, v) = w := by rw [← hw, ← hv]
        rw [hw2]
        exact List.mem_cons_self _ _
      · rw [if_neg hw] at h
        cases h

theorem lwa_of_mem_nodup (W : List (Nat × FileInfo)) (j : Nat) (v : FileInfo)
    (hnd : (W.map Prod.fst).Nodup) (hmem : (j, v) ∈ W) :
    lastWriteAt W j = some v := by
  induction W with
  | nil => cases hmem
  | cons w W ih =>
    have hnd' : (W.map Prod.fst).Nodup := (List.nodup_cons.mp hnd).2
    rw [lwa_cons]
    rcases List.mem_cons.mp hmem with heq | hmem'
    · have hwj : w.1 = j := by rw [← heq]
      have hv : w.2 = v := by rw [← heq]
      have hnone : lastWriteAt W j = none := by
        apply lwa_eq_none
        intro x hx hxj
        apply (List.nodup_cons.mp hnd).1
        rw [hwj, ← hxj]
        exact List.mem_map_of_mem Prod.fst hx
      rw [hnone, hwj, hv]
      simp
    · rw [ih hnd' hmem']
      simp

/-! ## Lemmas: enumeration -/

theorem enumFrom_length {α : Type} (n : Nat) (l : List α) :
    (enumFrom n l).length = l.length := by
  induction l generalizing n with
  | nil => rfl
  | cons a as ih => simp [enumFrom, ih]

theorem enumFrom_getq {α : Type} (l : List α) (n k : Nat) :
    (enumFrom n l)[k]? = l[k]?.map (fun a => (n + k, a)) := by
  induction l generalizing n k with
  | nil => simp [enumFrom]
  | cons a as ih =>
    cases k with
    | zero => simp [enumFrom]
    | succ m =>
      simp only [enumFrom, List.getElem?_cons_succ, ih (n + 1) m]
      have harith : n + 1 + m = n + (m + 1) := by omega
      rw [harith]

theorem enumFrom_map_snd {α : Type} (n : Nat) (l : List α) :
    (enumFrom n l).map Prod.snd = l := by
  induction l generalizing n with
  | nil => rfl
  | cons a as ih => simp [enumFrom, ih]

theorem mem_enumFrom {α : Type} (l : List α) (n : Nat) (p : Nat × α)
    (h : p ∈ enumFrom n l) : ∃ k, p.1 = n + k ∧ l[k]? = some p.2 := by
  induction l generalizing n with
  | nil => cases h
  | cons a as ih =>
    rcases List.mem_cons.mp h with heq | hmem
    · exact ⟨0, by rw [heq]; simp, by rw [heq]; simp⟩
    · obtain ⟨k, hk1, hk2⟩ := ih (n + 1) hmem
      exact ⟨k + 1, by omega, by simpa using hk2⟩

theorem enumFrom_fst_ge {α : Type} (l : List α) (n : Nat) (p : Nat × α)
    (h : p ∈ enumFrom n l) : n ≤ p.1 := by
  obtain ⟨k, hk, _⟩ := mem_enumFrom l n p h
  omega

theorem enumFrom_map_fst_nodup {α : Type} (n : Nat) (l : List α) :
    ((enumFrom n l).map Prod.fst).Nodup := by
  induction l generalizing n with
  | nil => exact List.nodup_nil
  | cons a as ih =>
    simp only [enumFrom, List.map_cons, List.nodup_cons]
    refine ⟨?_, ih (n + 1)⟩
    intro hmem
    obtain ⟨p, hp, hpn⟩ := List.mem_map.mp hmem
    have := enumFrom_fst_ge as (n + 1) p hp
    omega

/-! ## Lemmas: the stable sort -/

theorem insertByLe_perm (le : Nat × FileInfo → Nat × FileInfo → Bool)
    (a : Nat × FileInfo) (l : List (Nat × FileInfo)) :
    (insertByLe le a l).Perm (a :: l) := by
  induction l with
  | nil => exact List.Perm.refl _
  | cons b bs ih =>
    by_cases h : le a b
    · rw [insertByLe, if_pos h]
    · rw [insertByLe, if_neg h]
      exact List.Perm.trans (List.Perm.cons b ih) (List.Perm.swap a b bs)

theorem sortByLe_perm (le : Nat × FileInfo → Nat × FileInfo → Bool)
    (l : List (Nat × FileInfo)) : (sortByLe le l).Perm l := by
  induction l with
  | nil => exact List.Perm.refl _
  | cons a as ih =>
    exact List.Perm.trans (insertByLe_perm le a _) (List.Perm.cons a ih)

theorem mem_insertByLe (le : Nat × FileInfo → Nat × FileInfo → Bool)
    (a x : Nat × FileInfo) (l : List (Nat × FileInfo)) :
    x ∈ insertByLe le a l ↔ x = a ∨ x ∈ l := by
  rw [(insertByLe_perm le a l).mem_iff]
  simp

theorem mem_sortByLe (le : Nat × FileInfo → Nat × FileInfo → Bool)
    (x : Nat × FileInfo) (l : List (Nat × FileInfo)) :
    x ∈ sortByLe le l ↔ x ∈ l := (sortByLe_perm le l).mem_iff

theorem charListLe_total (a b : List Char) :
    charListLe a b = true ∨ charListLe b a = true := by
  induction a generalizing b with
  | nil => left; rfl
  | cons x xs ih =>
    cases b with
    | nil => right; rfl
    | cons y ys =>
      rcases Nat.lt_trichotomy x.toNat y.toNat with h | h | h
      · left; simp [charListLe, h]
      · have h1 : ¬ x.toNat < y.toNat := by omega
        have h2 : ¬ y.toNat < x.toNat := by omega
        rcases ih ys with hc | hc
        · left; simp [charListLe, h1, h2, hc]
        · right; simp [charListLe, h1, h2, hc]
      · right; simp [charListLe, h]

theorem charListLe_trans (a b c : List Char)
    (hab : charListLe a b = true) (hbc : charListLe b c = true) :
    charListLe a c = true := by
  induction a generalizing b c with
  | nil => rfl
  | cons x xs ih =>
    cases b with
    | nil => exact absurd hab (by simp [charListLe])
    | cons y ys =>
      cases c with
      | nil => exact absurd hbc (by simp [charListLe])
      | cons z zs =>
        simp only [charListLe] at hab hbc ⊢
        rcases Nat.lt_trichotomy x.toNat y.toNat with h1 | h1 | h1
        · rcases Nat.lt_trichotomy y.toNat z.toNat with h2 | h2 | h2
          · have hlt : x.toNat < z.toNat := by omega
            simp [hlt]
          · have hlt : x.toNat < z.toNat := by omega
            simp [hlt]
          · have hny : ¬ y.toNat < z.toNat := by omega
            simp [hny, h2] at hbc
        · rcases Nat.lt_trichotomy y.toNat z.toNat with h2 | h2 | h2
          · have hlt : x.toNat < z.toNat := by omega
            simp [hlt]
          · have hn1 : ¬ x.toNat < y.toNat := by omega
            have hn2 : ¬ y.toNat < x.toNat := by omega
            have hn3 : ¬ y.toNat < z.toNat := by omega
            have hn4 : ¬ z.toNat < y.toNat := by omega
            have hn5 : ¬ x.toNat < z.toNat := by omega
            have hn6 : ¬ z.toNat < x.toNat := by omega
            simp [hn1, hn2] at hab
            simp [hn3, hn4] at hbc
            simp [hn5, hn6]
            exact ih ys zs hab hbc
          · have hny : ¬ y.toNat < z.toNat := by omega
            simp [hny, h2] at hbc
        · have hnx : ¬ x.toNat < y.toNat := by omega
          simp [hnx, h1] at hab

theorem pairLe_total (a b : Nat × FileInfo) :
    pairLe a b = true ∨ pairLe b a = true :=
  charListLe_total a.2.name.data b.2.name.data

theorem pairLe_trans (a b c : Nat × FileInfo)
    (hab : pairLe a b = true) (hbc : pairLe b c = true) : pairLe a c = true :=
  charListLe_trans _ _ _ hab hbc

theorem pairwise_insertByLe (a : Nat × FileInfo) (l : List (Nat × FileInfo))
    (hl : l.Pairwise (fun x y => pairLe x y = true)) :
    (insertByLe pairLe a l).Pairwise (fun x y => pairLe x y = true) := by
  induction l with
  | nil => simp [insertByLe]
  | cons b bs ih =>
    rcases List.pairwise_cons.mp hl with ⟨hb, hbs⟩
    by_cases h : pairLe a b
    · rw [insertByLe, if_pos h]
      refine List.pairwise_cons.mpr ⟨?_, hl⟩
      intro x hx
      rcases List.mem_cons.mp hx with rfl | hx'
      · exact h
      · exact pairLe_trans a b x h (hb x hx')
    · rw [insertByLe, if_neg h]
      refine List.pairwise_cons.mpr ⟨?_, ih hbs⟩
      intro x hx
      rcases (mem_insertByLe pairLe a x bs).mp hx with rfl | hx'
      · rcases pairLe_total x b with hab | hba
        · exact absurd hab h
        · exact hba
      · exact hb x hx'

theorem pairwise_sortByLe (l : List (Nat × FileInfo)) :
    (sortByLe pairLe l).Pairwise (fun x y => pairLe x y = true) := by
  induction l with
  | nil => simp [sortByLe]
  | cons a as ih => exact pairwise_insertByLe a _ ih

/-! ## Lemmas: getElem? helpers -/

theorem lt_of_getq_some {α : Type} (L : List α) (j : Nat) (v : α)
    (h : L[j]? = some v) : j < L.length := by
  by_contra hge
  rw [List.getElem?_eq_none (by omega)] at h
  cases h

theorem mem_of_getq_some {α : Type} (L : List α) (j : Nat) (v : α)
    (h : L[j]? = some v) : v ∈ L := by
  have hlt := lt_of_getq_some L j v h
  have hv : L[j] = v := by
    have hq := List.getElem?_eq_getElem hlt
    rw [hq] at h
    exact Option.some.inj h
  rw [← hv]
  exact List.getElem_mem hlt

/-! ## Lemmas: the subtitle grouping -/

theorem addToGroups_flatten_perm (key : String) (it : Nat × FileInfo)
    (gs : List (String × List (Nat × FileInfo))) :
    (((addToGroups key it gs).map Prod.snd).flatten).Perm
      ((gs.map Prod.snd).flatten ++ [it]) := by
  induction gs with
  | nil => simp [addToGroups]
  | cons g gs ih =>
    obtain ⟨k, items⟩ := g
    by_cases h : k = key
    · simp only [addToGroups, if_pos h, List.map_cons, List.flatten_cons]
      rw [List.append_assoc, List.append_assoc]
      exact List.Perm.append_left items List.perm_append_comm
    · simp only [addToGroups, if_neg h, List.map_cons, List.flatten_cons]
      rw [List.append_assoc]
      exact List.Perm.append_left items ih

theorem groupsFold_flatten_perm (l : List (Nat × FileInfo))
    (acc : List (String × List (Nat × FileInfo))) :
    (((l.foldl (fun gs p => addToGroups (classifyKey p.2.name) p gs) acc).map
        Prod.snd).flatten).Perm ((acc.map Prod.snd).flatten ++ l) := by
  induction l generalizing acc with
  | nil => simp
  | cons p l ih =>
    simp only [List.foldl_cons]
    refine (ih _).trans ?_
    have hshape : p :: l = [p] ++ l := rfl
    rw [hshape, ← List.append_assoc]
    exact (addToGroups_flatten_perm _ p acc).append_right l

theorem subtitleGroups_flatten_perm (files : List FileInfo) :
    (((subtitleGroups files).map Prod.snd).flatten).Perm (subPairs files) := by
  simpa using groupsFold_flatten_perm (subPairs files) []

/-- Every bucket holds exactly the items that classify to its key. -/
def groupsKeyed (gs : List (String × List (Nat × FileInfo))) : Prop :=
  ∀ g ∈ gs, ∀ q ∈ g.2, classifyKey q.2.name = g.1

theorem groupsKeyed_addToGroups (p : Nat × FileInfo)
    (gs : List (String × List (Nat × FileInfo))) (h : groupsKeyed gs) :
    groupsKeyed (addToGroups (classifyKey p.2.name) p gs) := by
  induction gs with
  | nil =>
    intro g hg q hq
    simp only [addToGroups, List.mem_singleton] at hg
    subst hg
    simp only [List.mem_singleton] at hq
    subst hq
    rfl
  | cons g0 gs ih =>
    obtain ⟨k, items⟩ := g0
    have hg0 : ∀ q ∈ items, classifyKey q.2.name = k :=
      fun q hq => h (k, items) (List.mem_cons_self _ _) q hq
    have htail : groupsKeyed gs :=
      fun g hg q hq => h g (List.mem_cons_of_mem _ hg) q hq
    by_cases hk : k = classifyKey p.2.name
    · intro g hg q hq
      simp only [addToGroups, if_pos hk] at hg
      rcases List.mem_cons.mp hg with heq | hmem
      · subst heq
        rcases List.mem_append.mp hq with hq1 | hq2
        · exact hg0 q hq1
        · simp only [List.mem_singleton] at hq2
          subst hq2
          exact hk.symm
      · exact htail g hmem q hq
    · intro g hg q hq
      simp only [addToGroups, if_neg hk] at hg
      rcases List.mem_cons.mp hg with heq | hmem
      · subst heq
        exact hg0 q hq
      · exact ih htail g hmem q hq

theorem groupsKeyed_fold (l : List (Nat × FileInfo))
    (acc : List (String × List (Nat × FileInfo))) (h : groupsKeyed acc) :
    groupsKeyed (l.foldl (fun gs p => addToGroups (classifyKey p.2.name) p gs) acc) := by
  induction l generalizing acc with
  | nil => exact h
  | cons p l ih =>
    simp only [List.foldl_cons]
    exact ih _ (groupsKeyed_addToGroups p acc h)

theorem groupsKeyed_subtitleGroups (files : List FileInfo) :
    groupsKeyed (subtitleGroups files) :=
  groupsKeyed_fold (subPairs files) [] (fun g hg => absurd hg (List.not_mem_nil g))

theorem groupsKeyed_sorted (files : List FileInfo) :
    groupsKeyed (sortedSubtitleGroups files) := by
  intro g hg q hq
  obtain ⟨g0, hg0, hgg⟩ := List.mem_map.mp hg
  subst hgg
  have hq0 : q ∈ g0.2 := (mem_sortByLe pairLe q g0.2).mp hq
  exact groupsKeyed_subtitleGroups files g0 hg0 q hq0

theorem forall2_map_map {α β γ : Type} (f : α → β) (g : α → γ)
    (R : β → γ → Prop) (l : List α) (h : ∀ a ∈ l, R (f a) (g a)) :
    List.Forall₂ R (l.map f) (l.map g) := by
  induction l with
  | nil => exact List.Forall₂.nil
  | cons a as ih =>
    exact List.Forall₂.cons (h a (List.mem_cons_self _ _))
      (ih (fun x hx => h x (List.mem_cons_of_mem a hx)))

theorem flatten_perm_of_forall2 {ll ll' : List (List (Nat × FileInfo))}
    (h : List.Forall₂ (fun a b => a.Perm b) ll ll') :
    ll.flatten.Perm ll'.flatten := by
  induction h with
  | nil => exact List.Perm.refl _
  | cons hab _ ih =>
    simp only [List.flatten_cons]
    exact hab.append ih

theorem sortedSubtitleGroups_flatten_perm (files : List FileInfo) :
    (((sortedSubtitleGroups files).map Prod.snd).flatten).Perm (subPairs files) := by
  refine (flatten_perm_of_forall2 ?_).trans (subtitleGroups_flatten_perm files)
  rw [sortedSubtitleGroups, List.map_map]
  exact forall2_map_map _ _ _ _ (fun g _ => sortByLe_perm pairLe g.2)

/-! ## Lemmas: membership and distinctness of the write targets -/

theorem mem_subPairs (files : List FileInfo) (q : Nat × FileInfo)
    (h : q ∈ subPairs files) :
    files[q.1]? = some q.2 ∧ q.2.is_subtitle = true := by
  obtain ⟨hmem, hpred⟩ := List.mem_filter.mp h
  obtain ⟨k, hk1, hk2⟩ := mem_enumFrom files 0 q hmem
  refine ⟨?_, by simpa using hpred⟩
  rw [hk1]
  simpa using hk2

theorem mem_videoPairs (files : List FileInfo) (q : Nat × FileInfo)
    (h : q ∈ videoPairs files) :
    files[q.1]? = some q.2 ∧ q.2.is_video = true := by
  have hfil := (mem_sortByLe pairLe q _).mp h
  obtain ⟨hmem, hpred⟩ := List.mem_filter.mp hfil
  obtain ⟨k, hk1, hk2⟩ := mem_enumFrom files 0 q hmem
  refine ⟨?_, by simpa using hpred⟩
  rw [hk1]
  simpa using hk2

theorem videoPairs_fst_nodup (files : List FileInfo) :
    ((videoPairs files).map Prod.fst).Nodup := by
  have hperm := (sortByLe_perm pairLe
    ((enumFrom 0 files).filter (fun p => p.2.is_video))).map Prod.fst
  refine hperm.nodup_iff.mpr ?_
  exact List.Nodup.sublist ((List.filter_sublist _).map Prod.fst)
    (enumFrom_map_fst_nodup 0 files)

theorem subFlatten_fst_nodup (files : List FileInfo) :
    ((((sortedSubtitleGroups files).map Prod.snd).flatten).map Prod.fst).Nodup := by
  have hperm := (sortedSubtitleGroups_flatten_perm files).map Prod.fst
  refine hperm.nodup_iff.mpr ?_
  exact List.Nodup.sublist ((List.filter_sublist _).map Prod.fst)
    (enumFrom_map_fst_nodup 0 files)

theorem videoWrites_map_fst (files : List FileInfo) (d : AniListResponse)
    (tmpl : String) :
    (videoWrites files d tmpl).map Prod.fst = (videoPairs files).map Prod.fst := by
  rw [videoWrites, List.map_map]
  have hfun : (Prod.fst ∘ fun q : Nat × (Nat × FileInfo) =>
      (q.2.1, processVideo d tmpl q.2.2 q.1)) = Prod.fst ∘ Prod.snd := rfl
  rw [hfun, ← List.map_map, enumFrom_map_snd]

theorem groupWrites_map_fst (d : AniListResponse) (tmpl subSuffix : String)
    (g : String × List (Nat × FileInfo)) :
    (groupWrites d tmpl subSuffix g).map Prod.fst = g.2.map Prod.fst := by
  rw [groupWrites, List.map_map]
  have hfun : (Prod.fst ∘ fun q : Nat × (Nat × FileInfo) =>
      (q.2.1, processSubtitle d tmpl subSuffix g.1 q.2.2 q.1)) =
        Prod.fst ∘ Prod.snd := rfl
  rw [hfun, ← List.map_map, enumFrom_map_snd]

theorem subtitleWrites_map_fst (files : List FileInfo) (d : AniListResponse)
    (tmpl subSuffix : String) :
    (subtitleWrites files d tmpl subSuffix).map Prod.fst =
      (((sortedSubtitleGroups files).map Prod.snd).flatten).map Prod.fst := by
  rw [subtitleWrites, List.map_flatten, List.map_flatten, List.map_map, List.map_map]
  congr 1
  apply List.map_congr_left
  intro g _
  exact groupWrites_map_fst d tmpl subSuffix g

theorem mem_videoWrites (files : List FileInfo) (d : AniListResponse)
    (tmpl : String) (w : Nat × FileInfo) (h : w ∈ videoWrites files d tmpl) :
    ∃ (k : Nat) (p : Nat × FileInfo), w = (p.1, processVideo d tmpl p.2 k) ∧
      files[p.1]? = some p.2 ∧ p.2.is_video = true := by
  obtain ⟨q, hq, hw⟩ := List.mem_map.mp h
  have hqvp : q.2 ∈ videoPairs files := by
    have hm := List.mem_map_of_mem Prod.snd hq
    rwa [enumFrom_map_snd] at hm
  obtain ⟨hget, hvid⟩ := mem_videoPairs files q.2 hqvp
  exact ⟨q.1, q.2, hw.symm, hget, hvid⟩

theorem mem_subtitleWrites (files : List FileInfo) (d : AniListResponse)
    (tmpl subSuffix : String) (w : Nat × FileInfo)
    (h : w ∈ subtitleWrites files d tmpl subSuffix) :
    ∃ (k : Nat) (key : String) (p : Nat × FileInfo),
      w = (p.1, processSubtitle d tmpl subSuffix key p.2 k) ∧
      files[p.1]? = some p.2 ∧ p.2.is_subtitle = true := by
  obtain ⟨wl, hwl, hwmem⟩ := List.mem_flatten.mp h
  obtain ⟨g, hg, hgw⟩ := List.mem_map.mp hwl
  subst hgw
  obtain ⟨q, hq, hqw⟩ := List.mem_map.mp hwmem
  have hq2 : q.2 ∈ g.2 := by
    have hm := List.mem_map_of_mem Prod.snd hq
    rwa [enumFrom_map_snd] at hm
  have hq2' : q.2 ∈ subPairs files := by
    have hfl : q.2 ∈ ((sortedSubtitleGroups files).map Prod.snd).flatten :=
      List.mem_flatten.mpr ⟨g.2, List.mem_map_of_mem Prod.snd hg, hq2⟩
    exact (sortedSubtitleGroups_flatten_perm files).mem_iff.mp hfl
  obtain ⟨hget, hsub⟩ := mem_subPairs files q.2 hq2'
  exact ⟨q.1, g.1, q.2, hqw.symm, hget, hsub⟩

/-! ## Lemmas: which write reaches which index -/

theorem applyMetadata_length (files : List FileInfo) (d : AniListResponse)
    (tmpl subSuffix : String) :
    (applyMetadata files d tmpl subSuffix).length = files.length :=
  length_setFold _ _

theorem videoWrites_getq (files : List FileInfo) (d : AniListResponse)
    (tmpl : String) (k : Nat) :
    (videoWrites files d tmpl)[k]? =
      ((videoPairs files)[k]?).map (fun p => (p.1, processVideo d tmpl p.2 k)) := by
  rw [videoWrites, List.getElem?_map, enumFrom_getq]
  cases (videoPairs files)[k]? <;> simp

theorem groupWrites_getq (d : AniListResponse) (tmpl subSuffix : String)
    (g : String × List (Nat × FileInfo)) (k : Nat) :
    (groupWrites d tmpl subSuffix g)[k]? =
      (g.2[k]?).map (fun q => (q.1, processSubtitle d tmpl subSuffix g.1 q.2 k)) := by
  rw [groupWrites, List.getElem?_map, enumFrom_getq]
  cases g.2[k]? <;> simp

theorem video_write_hits (files : List FileInfo) (d : AniListResponse)
    (tmpl subSuffix : String)
    (hdisj : ∀ f ∈ files, ¬(f.is_video = true ∧ f.is_subtitle = true))
    (k : Nat) (h : k < (videoPairs files).length) :
    (applyMetadata files d tmpl subSuffix)[((videoPairs files).get ⟨k, h⟩).1]? =
      some (processVideo d tmpl ((videoPairs files).get ⟨k, h⟩).2 k) := by
  set p := (videoPairs files).get ⟨k, h⟩ with hp
  have hpq : (videoPairs files)[k]? = some p := by
    rw [List.getElem?_eq_getElem h]
    rfl
  obtain ⟨hget, hvid⟩ := mem_videoPairs files p
    (by rw [hp]; exact List.get_mem _ k h)
  have hw : (videoWrites files d tmpl)[k]? =
      some (p.1, processVideo d tmpl p.2 k) := by
    rw [videoWrites_getq, hpq]
    rfl
  have hwmem : (p.1, processVideo d tmpl p.2 k) ∈ videoWrites files d tmpl :=
    mem_of_getq_some _ k _ hw
  have hnodupv : ((videoWrites files d tmpl).map Prod.fst).Nodup := by
    rw [videoWrites_map_fst]
    exact videoPairs_fst_nodup files
  have hlwa_v : lastWriteAt (videoWrites files d tmpl) p.1 =
      some (processVideo d tmpl p.2 k) :=
    lwa_of_mem_nodup _ _ _ hnodupv hwmem
  have hmiss : ∀ w ∈ subtitleWrites files d tmpl subSuffix, w.1 ≠ p.1 := by
    intro w hwmem' hwp
    obtain ⟨k', key, q, hweq, hget', hsub⟩ :=
      mem_subtitleWrites files d tmpl subSuffix w hwmem'
    have hq1 : q.1 = p.1 := by rw [hweq] at hwp; exact hwp
    rw [hq1, hget] at hget'
    have hq2 : p.2 = q.2 := Option.some.inj hget'
    have hpmem : p.2 ∈ files := mem_of_getq_some files p.1 p.2 hget
    exact hdisj p.2 hpmem ⟨hvid, by rw [hq2]; exact hsub⟩
  have hlwa_s : lastWriteAt (subtitleWrites files d tmpl subSuffix) p.1 = none :=
    lwa_eq_none _ _ hmiss
  have hplt : p.1 < files.length := lt_of_getq_some files p.1 p.2 hget
  rw [applyMetadata, getq_setFold, allWrites, lwa_append, hlwa_s, hlwa_v]
  simp [hplt]

theorem subtitle_write_hits (files : List FileInfo) (d : AniListResponse)
    (tmpl subSuffix : String) (g : String × List (Nat × FileInfo))
    (hg : g ∈ sortedSubtitleGroups files)
    (k : Nat) (h : k < g.2.length) :
    (applyMetadata files d tmpl subSuffix)[(g.2.get ⟨k, h⟩).1]? =
      some (processSubtitle d tmpl subSuffix g.1 (g.2.get ⟨k, h⟩).2 k) := by
  set q := g.2.get ⟨k, h⟩ with hq
  have hqq : g.2[k]? = some q := by
    rw [List.getElem?_eq_getElem h]
    rfl
  have hw : (groupWrites d tmpl subSuffix g)[k]? =
      some (q.1, processSubtitle d tmpl subSuffix g.1 q.2 k) := by
    rw [groupWrites_getq, hqq]
    rfl
  have hwmem : (q.1, processSubtitle d tmpl subSuffix g.1 q.2 k) ∈
      subtitleWrites files d tmpl subSuffix := by
    refine List.mem_flatten.mpr ⟨groupWrites d tmpl subSuffix g, ?_, ?_⟩
    · exact List.mem_map_of_mem _ hg
    · exact mem_of_getq_some _ k _ hw
  have hnodups : ((subtitleWrites files d tmpl subSuffix).map Prod.fst).Nodup := by
    rw [subtitleWrites_map_fst]
    exact subFlatten_fst_nodup files
  have hlwa_s : lastWriteAt (subtitleWrites files d tmpl subSuffix) q.1 =
      some (processSubtitle d tmpl subSuffix g.1 q.2 k) :=
    lwa_of_mem_nodup _ _ _ hnodups hwmem
  have hqsub : q ∈ subPairs files := by
    have hfl : q ∈ ((sortedSubtitleGroups files).map Prod.snd).flatten :=
      List.mem_flatten.mpr ⟨g.2, List.mem_map_of_mem Prod.snd hg,
        by rw [hq]; exact List.get_mem _ k h⟩
    exact (sortedSubtitleGroups_flatten_perm files).mem_iff.mp hfl
  obtain ⟨hget, _⟩ := mem_subPairs files q hqsub
  have hqlt : q.1 < files.length := lt_of_getq_some files q.1 q.2 hget
  rw [applyMetadata, getq_setFold, allWrites, lwa_append, hlwa_s]
  simp [hqlt]

/-! ## Lemmas: congruence machinery

`applyMetadata` recomputes `metadata` and `new_name` of the written files
from the other fields only; these lemmas track a relation through the
sorting/grouping pipeline to compare two invocations. -/

/-- Equality of all `FileInfo` fields except the two the planner writes
(`metadata`, `new_name`). -/
def coreEq (a b : FileInfo) : Prop :=
  a.path = b.path ∧ a.name = b.name ∧ a.size = b.size ∧
  a.file_type = b.file_type ∧ a.is_video = b.is_video ∧
  a.is_subtitle = b.is_subtitle ∧ a.parsed = b.parsed

theorem coreEq_refl (a : FileInfo) : coreEq a a :=
  ⟨rfl, rfl, rfl, rfl, rfl, rfl, rfl⟩

theorem coreEq_processVideo (d : AniListResponse) (tmpl : String)
    (a b : FileInfo) (k : Nat) (h : coreEq a b) :
    processVideo d tmpl a k = processVideo d tmpl b k := by
  obtain ⟨h1, h2, h3, h4, h5, h6, h7⟩ := h
  cases a
  cases b
  simp_all [processVideo, seasonOf, groupOf]

theorem coreEq_processSubtitle (d : AniListResponse)
    (tmpl subSuffix key : String) (a b : FileInfo) (k : Nat) (h : coreEq a b) :
    processSubtitle d tmpl subSuffix key a k = processSubtitle d tmpl subSuffix key b k := by
  obtain ⟨h1, h2, h3, h4, h5, h6, h7⟩ := h
  cases a
  cases b
  simp_all [processSubtitle, seasonOf, groupOf]

theorem coreEq_write_video (d : AniListResponse) (tmpl : String)
    (f : FileInfo) (k : Nat) : coreEq f (processVideo d tmpl f k) := by
  simp [processVideo, coreEq]

theorem coreEq_write_subtitle (d : AniListResponse)
    (tmpl subSuffix key : String) (f : FileInfo) (k : Nat) :
    coreEq f (processSubtitle d tmpl subSuffix key f k) := by
  simp [processSubtitle, coreEq]

theorem forall2_refl {α : Type} {R : α → α → Prop} (l : List α)
    (h : ∀ x ∈ l, R x x) : List.Forall₂ R l l := by
  induction l with
  | nil => exact List.Forall₂.nil
  | cons a as ih =>
    exact List.Forall₂.cons (h a (List.mem_cons_self _ _))
      (ih fun x hx => h x (List.mem_cons_of_mem a hx))

theorem forall2_map_eq {α β : Type} {l l' : List α} {f g : α → β}
    (h : List.Forall₂ (fun a b => f a = g b) l l') : l.map f = l'.map g := by
  induction h with
  | nil => rfl
  | cons hab _ ih => simp [hab, ih]

theorem forall2_filter_pair {R : Nat × FileInfo → Nat × FileInfo → Prop}
    (p : Nat × FileInfo → Bool) (hp : ∀ a b, R a b → p a = p b)
    {l l' : List (Nat × FileInfo)} (h : List.Forall₂ R l l') :
    List.Forall₂ R (l.filter p) (l'.filter p) := by
  induction h with
  | nil => exact List.Forall₂.nil
  | cons hab htail ih =>
    rename_i a b l₀ l₀'
    rw [List.filter_cons, List.filter_cons, ← hp a b hab]
    by_cases hpa : p a = true
    · rw [if_pos hpa, if_pos hpa]
      exact List.Forall₂.cons hab ih
    · rw [if_neg hpa, if_neg hpa]
      exact ih

theorem forall2_insertByLe {R : Nat × FileInfo → Nat × FileInfo → Prop}
    (le : Nat × FileInfo → Nat × FileInfo → Bool)
    (hle : ∀ a b a' b', R a b → R a' b' → le a a' = le b b')
    (a b : Nat × FileInfo) (hab : R a b)
    {l l' : List (Nat × FileInfo)} (h : List.Forall₂ R l l') :
    List.Forall₂ R (insertByLe le a l) (insertByLe le b l') := by
  induction h with
  | nil => exact List.Forall₂.cons hab List.Forall₂.nil
  | cons hxy htail ih =>
    rename_i x y l₀ l₀'
    rw [insertByLe, insertByLe, ← hle a b x y hab hxy]
    by_cases hc : le a x = true
    · rw [if_pos hc, if_pos hc]
      exact List.Forall₂.cons hab (List.Forall₂.cons hxy htail)
    · rw [if_neg hc, if_neg hc]
      exact List.Forall₂.cons hxy ih

theorem forall2_sortByLe {R : Nat × FileInfo → Nat × FileInfo → Prop}
    (le : Nat × FileInfo → Nat × FileInfo → Bool)
    (hle : ∀ a b a' b', R a b → R a' b' → le a a' = le b b')
    {l l' : List (Nat × FileInfo)} (h : List.Forall₂ R l l') :
    List.Forall₂ R (sortByLe le l) (sortByLe le l') := by
  induction h with
  | nil => exact List.Forall₂.nil
  | cons hab htail ih =>
    rw [sortByLe, sortByLe]
    exact forall2_insertByLe le hle _ _ hab ih

theorem forall2_enumFrom {α : Type} {Q : α → α → Prop} (n : Nat)
    {l l' : List α} (h : List.Forall₂ Q l l') :
    List.Forall₂ (fun p q => p.1 = q.1 ∧ Q p.2 q.2)
      (enumFrom n l) (enumFrom n l') := by
  induction h generalizing n with
  | nil => exact List.Forall₂.nil
  | cons hab htail ih => exact List.Forall₂.cons ⟨rfl, hab⟩ (ih (n + 1))

theorem forall2_append {α : Type} {R : α → α → Prop} {l₁ l₂ u₁ u₂ : List α}
    (h1 : List.Forall₂ R l₁ l₂) (h2 : List.Forall₂ R u₁ u₂) :
    List.Forall₂ R (l₁ ++ u₁) (l₂ ++ u₂) := by
  induction h1 with
  | nil => exact h2
  | cons hab _ ih => exact List.Forall₂.cons hab ih

/-- The relation tracked between corresponding groups. -/
def groupRel (R : Nat × FileInfo → Nat × FileInfo → Prop)
    (g g' : String × List (Nat × FileInfo)) : Prop :=
  g.1 = g'.1 ∧ List.Forall₂ R g.2 g'.2

theorem forall2_addToGroups {R : Nat × FileInfo → Nat × FileInfo → Prop}
    (key : String) (a b : Nat × FileInfo) (hab : R a b)
    {gs gs' : List (String × List (Nat × FileInfo))}
    (h : List.Forall₂ (groupRel R) gs gs') :
    List.Forall₂ (groupRel R) (addToGroups key a gs) (addToGroups key b gs') := by
  induction h with
  | nil =>
    exact List.Forall₂.cons ⟨rfl, List.Forall₂.cons hab List.Forall₂.nil⟩
      List.Forall₂.nil
  | cons hgg htail ih =>
    rename_i g g' gs₀ gs₀'
    obtain ⟨k, items⟩ := g
    obtain ⟨k', items'⟩ := g'
    obtain ⟨hk, hmem⟩ := hgg
    simp only at hk
    subst hk
    by_cases hkey : k = key
    · simp only [addToGroups, if_pos hkey]
      refine List.Forall₂.cons ⟨rfl, ?_⟩ htail
      exact forall2_append hmem (List.Forall₂.cons hab List.Forall₂.nil)
    · simp only [addToGroups, if_neg hkey]
      exact List.Forall₂.cons ⟨rfl, hmem⟩ ih

theorem forall2_groupsFold {R : Nat × FileInfo → Nat × FileInfo → Prop}
    (hname : ∀ a b, R a b → a.2.name = b.2.name)
    {l l' : List (Nat × FileInfo)} (h : List.Forall₂ R l l')
    {gs gs' : List (String × List (Nat × FileInfo))}
    (hacc : List.Forall₂ (groupRel R) gs gs') :
    List.Forall₂ (groupRel R)
      (l.foldl (fun gs p => addToGroups (classifyKey p.2.name) p gs) gs)
      (l'.foldl (fun gs p => addToGroups (classifyKey p.2.name) p gs) gs') := by
  induction h generalizing gs gs' with
  | nil => exact hacc
  | cons hab htail ih =>
    rename_i a b l₀ l₀'
    simp only [List.foldl_cons]
    have hkey : classifyKey a.2.name = classifyKey b.2.name := by
      rw [hname a b hab]
    rw [hkey]
    exact ih (forall2_addToGroups (classifyKey b.2.name) a b hab hacc)

theorem lwa_congr_off (i j : Nat) (hji : j ≠ i)
    {W W' : List (Nat × FileInfo)}
    (h : List.Forall₂ (fun w w' => w.1 = w'.1 ∧ (w.1 ≠ i → w.2 = w'.2)) W W') :
    lastWriteAt W j = lastWriteAt W' j := by
  induction h with
  | nil => rfl
  | cons hww htail ih =>
    rename_i w w' W₀ W₀'
    rw [lwa_cons, lwa_cons, ih, ← hww.1]
    cases lastWriteAt W₀' j with
    | some v => rfl
    | none =>
      simp only [Option.elim_none]
      by_cases hw : w.1 = j
      · rw [if_pos hw, if_pos hw, hww.2 (by rw [hw]; exact hji)]
      · rw [if_neg hw, if_neg hw]

theorem forall2_map_rel {α β : Type} {R : α → α → Prop} {S : β → β → Prop}
    (f g : α → β) (hfg : ∀ a b, R a b → S (f a) (g b))
    {l l' : List α} (h : List.Forall₂ R l l') :
    List.Forall₂ S (l.map f) (l'.map g) := by
  induction h with
  | nil => exact List.Forall₂.nil
  | cons hab _ ih => exact List.Forall₂.cons (hfg _ _ hab) ih

theorem forall2_flatten {α : Type} {R : α → α → Prop}
    {ll ll' : List (List α)} (h : List.Forall₂ (List.Forall₂ R) ll ll') :
    List.Forall₂ R ll.flatten ll'.flatten := by
  induction h with
  | nil => exact List.Forall₂.nil
  | cons hab _ ih =>
    simp only [List.flatten_cons]
    exact forall2_append hab ih

theorem forall2_of_getq {α : Type} {Q : α → α → Prop} :
    ∀ (l l' : List α), l.length = l'.length →
    (∀ (j : Nat) (a b : α), l[j]? = some a → l'[j]? = some b → Q a b) →
    List.Forall₂ Q l l' := by
  intro l
  induction l with
  | nil =>
    intro l' hlen _
    cases l' with
    | nil => exact List.Forall₂.nil
    | cons b bs => simp at hlen
  | cons a as ih =>
    intro l' hlen hq
    cases l' with
    | nil => simp at hlen
    | cons b bs =>
      refine List.Forall₂.cons (hq 0 a b (by simp) (by simp)) ?_
      refine ih bs (by simpa using hlen) ?_
      intro j x y hx hy
      exact hq (j + 1) x y (by simpa using hx) (by simpa using hy)

/-- `applyMetadata` never changes the fields outside `metadata`/`new_name`:
every output position is core-equal to the corresponding input position. -/
theorem coreEq_applyMetadata (files : List FileInfo) (d : AniListResponse)
    (tmpl subSuffix : String) :
    List.Forall₂ coreEq files (applyMetadata files d tmpl subSuffix) := by
  refine forall2_of_getq files _ (applyMetadata_length files d tmpl subSuffix).symm ?_
  intro j a b ha hb
  rw [applyMetadata, getq_setFold] at hb
  cases hl : lastWriteAt (allWrites files d tmpl subSuffix) j with
  | none =>
    rw [hl] at hb
    simp only [Option.elim_none] at hb
    rw [ha] at hb
    rw [Option.some.inj hb]
    exact coreEq_refl _
  | some v =>
    rw [hl] at hb
    simp only [Option.elim_some, lt_of_getq_some files j a ha, if_pos] at hb
    have hv : v = b := Option.some.inj hb
    subst hv
    have hmem := lwa_mem _ _ _ hl
    rcases List.mem_append.mp hmem with hmv | hms
    · obtain ⟨k, p, heq, hget, _⟩ := mem_videoWrites files d tmpl _ hmv
      have hj : j = p.1 := congrArg Prod.fst heq
      have hvv : v = processVideo d tmpl p.2 k := congrArg Prod.snd heq
      rw [hj, hget] at ha
      rw [hvv, ← Option.some.inj ha]
      exact coreEq_write_video d tmpl p.2 k
    · obtain ⟨k, key, p, heq, hget, _⟩ := mem_subtitleWrites files d tmpl subSuffix _ hms
      have hj : j = p.1 := congrArg Prod.fst heq
      have hvv : v = processSubtitle d tmpl subSuffix key p.2 k := congrArg Prod.snd heq
      rw [hj, hget] at ha
      rw [hvv, ← Option.some.inj ha]
      exact coreEq_write_subtitle d tmpl subSuffix key p.2 k

theorem allWrites_congr_core (F F' : List FileInfo) (d : AniListResponse)
    (tmpl subSuffix : String) (h : List.Forall₂ coreEq F F') :
    allWrites F d tmpl subSuffix = allWrites F' d tmpl subSuffix := by
  have hE := forall2_enumFrom 0 h
  have hname : ∀ p q : Nat × FileInfo,
      (fun p q => p.1 = q.1 ∧ coreEq p.2 q.2) p q → p.2.name = q.2.name :=
    fun _ _ hp => hp.2.2.1
  have hle : ∀ a b a' b' : Nat × FileInfo,
      (fun p q => p.1 = q.1 ∧ coreEq p.2 q.2) a b →
      (fun p q => p.1 = q.1 ∧ coreEq p.2 q.2) a' b' →
      pairLe a a' = pairLe b b' := by
    intro a b a' b' hab ha'b'
    unfold pairLe nameLe
    rw [hname a b hab, hname a' b' ha'b']
  have hVP : List.Forall₂ (fun p q => p.1 = q.1 ∧ coreEq p.2 q.2)
      (videoPairs F) (videoPairs F') := by
    apply forall2_sortByLe pairLe hle
    apply forall2_filter_pair _ (fun a b hab => by rw [hab.2.2.2.2.2.1]) hE
  have hvw : videoWrites F d tmpl = videoWrites F' d tmpl := by
    apply forall2_map_eq
    refine List.Forall₂.imp ?_ (forall2_enumFrom 0 hVP)
    intro u u' hu
    obtain ⟨hk, hfst, hcore⟩ := hu
    rw [hk, hfst, coreEq_processVideo d tmpl u.2.2 u'.2.2 u'.1 hcore]
  have hSP : List.Forall₂ (fun p q => p.1 = q.1 ∧ coreEq p.2 q.2)
      (subPairs F) (subPairs F') :=
    forall2_filter_pair _ (fun a b hab => by rw [hab.2.2.2.2.2.2.1]) hE
  have hGF : List.Forall₂ (groupRel (fun p q => p.1 = q.1 ∧ coreEq p.2 q.2))
      (subtitleGroups F) (subtitleGroups F') :=
    forall2_groupsFold hname hSP List.Forall₂.nil
  have hSG : List.Forall₂ (groupRel (fun p q => p.1 = q.1 ∧ coreEq p.2 q.2))
      (sortedSubtitleGroups F) (sortedSubtitleGroups F') := by
    apply forall2_map_rel _ _ ?_ hGF
    intro g g' hg
    exact ⟨hg.1, forall2_sortByLe pairLe hle hg.2⟩
  have hsw : subtitleWrites F d tmpl subSuffix = subtitleWrites F' d tmpl subSuffix := by
    rw [subtitleWrites, subtitleWrites]
    congr 1
    apply forall2_map_eq
    refine List.Forall₂.imp ?_ hSG
    intro g g' hg
    rw [groupWrites, groupWrites, hg.1]
    apply forall2_map_eq
    refine List.Forall₂.imp ?_ (forall2_enumFrom 0 hg.2)
    intro u u' hu
    obtain ⟨hk, hfst, hcore⟩ := hu
    rw [hk, hfst, coreEq_processSubtitle d tmpl subSuffix g'.1 u.2.2 u'.2.2 u'.1 hcore]
  rw [allWrites, allWrites, hvw, hsw]

/-- Replacing the file at one position while keeping its name and role flags
relates the two enumerations: corresponding entries agree on index, name and
flags, and are fully equal away from the replaced index. -/
theorem forall2_enumFrom_set (v : FileInfo) :
    ∀ (l : List FileInfo) (n j : Nat),
    (∀ fj, l[j]? = some fj → fj.name = v.name ∧ fj.is_video = v.is_video ∧
      fj.is_subtitle = v.is_subtitle) →
    List.Forall₂ (fun p q => p.1 = q.1 ∧ p.2.name = q.2.name ∧
        p.2.is_video = q.2.is_video ∧ p.2.is_subtitle = q.2.is_subtitle ∧
        (p.1 ≠ n + j → p.2 = q.2))
      (enumFrom n l) (enumFrom n (l.set j v))
  | [], n, j, _ => by simp [enumFrom]
  | a :: as, n, 0, hfl => by
    simp only [List.set]
    refine List.Forall₂.cons ?_ ?_
    · obtain ⟨h1, h2, h3⟩ := hfl a (by simp)
      exact ⟨rfl, h1, h2, h3, fun hne => absurd (by omega) hne⟩
    · refine forall2_refl _ ?_
      intro x _
      exact ⟨rfl, rfl, rfl, rfl, fun _ => rfl⟩
  | a :: as, n, j + 1, hfl => by
    simp only [List.set]
    refine List.Forall₂.cons ⟨rfl, rfl, rfl, rfl, fun _ => rfl⟩ ?_
    have harith : n + (j + 1) = (n + 1) + j := by omega
    rw [harith]
    exact forall2_enumFrom_set v as (n + 1) j (fun fj hj => hfl fj (by simpa using hj))

theorem allWrites_congr_off (F F' : List FileInfo) (i : Nat)
    (d : AniListResponse) (tmpl subSuffix : String)
    (hE : List.Forall₂ (fun p q => p.1 = q.1 ∧ p.2.name = q.2.name ∧
        p.2.is_video = q.2.is_video ∧ p.2.is_subtitle = q.2.is_subtitle ∧
        (p.1 ≠ i → p.2 = q.2))
      (enumFrom 0 F) (enumFrom 0 F')) :
    List.Forall₂ (fun w w' => w.1 = w'.1 ∧ (w.1 ≠ i → w.2 = w'.2))
      (allWrites F d tmpl subSuffix) (allWrites F' d tmpl subSuffix) := by
  set R := fun p q : Nat × FileInfo => p.1 = q.1 ∧ p.2.name = q.2.name ∧
    p.2.is_video = q.2.is_video ∧ p.2.is_subtitle = q.2.is_subtitle ∧
    (p.1 ≠ i → p.2 = q.2) with hR
  have hname : ∀ p q, R p q → p.2.name = q.2.name := fun _ _ hp => hp.2.1
  have hle : ∀ a b a' b', R a b → R a' b' → pairLe a a' = pairLe b b' := by
    intro a b a' b' hab ha'b'
    unfold pairLe nameLe
    rw [hname a b hab, hname a' b' ha'b']
  have hVP : List.Forall₂ R (videoPairs F) (videoPairs F') := by
    apply forall2_sortByLe pairLe hle
    exact forall2_filter_pair _ (fun a b hab => by rw [hab.2.2.1]) hE
  have hvw : List.Forall₂ (fun w w' => w.1 = w'.1 ∧ (w.1 ≠ i → w.2 = w'.2))
      (videoWrites F d tmpl) (videoWrites F' d tmpl) := by
    apply forall2_map_rel _ _ ?_ (forall2_enumFrom 0 hVP)
    intro u u' hu
    obtain ⟨hk, hfst, _, _, _, hoff⟩ := hu
    refine ⟨hfst, fun hne => ?_⟩
    rw [hk, hfst, hoff hne]
  have hSP : List.Forall₂ R (subPairs F) (subPairs F') :=
    forall2_filter_pair _ (fun a b hab => by rw [hab.2.2.2.1]) hE
  have hGF : List.Forall₂ (groupRel R) (subtitleGroups F) (subtitleGroups F') :=
    forall2_groupsFold hname hSP List.Forall₂.nil
  have hSG : List.Forall₂ (groupRel R)
      (sortedSubtitleGroups F) (sortedSubtitleGroups F') := by
    apply forall2_map_rel _ _ ?_ hGF
    intro g g' hg
    exact ⟨hg.1, forall2_sortByLe pairLe hle hg.2⟩
  have hsw : List.Forall₂ (fun w w' => w.1 = w'.1 ∧ (w.1 ≠ i → w.2 = w'.2))
      (subtitleWrites F d tmpl subSuffix) (subtitleWrites F' d tmpl subSuffix) := by
    apply forall2_flatten
    apply forall2_map_rel _ _ ?_ hSG
    intro g g' hg
    apply forall2_map_rel _ _ ?_ (forall2_enumFrom 0 hg.2)
    intro u u' hu
    obtain ⟨hk, hfst, _, _, _, hoff⟩ := hu
    refine ⟨hfst, fun hne => ?_⟩
    rw [hk, hfst, hoff hne, hg.1]
  exact forall2_append hvw hsw

/-! ## Lemmas: whitespace normalization of resolved names -/

/-- No two adjacent whitespace characters. -/
def noSpaceRun : List Char → Bool
  | [] => true
  | [_] => true
  | a :: b :: rest => !(isJsSpace a && isJsSpace b) && noSpaceRun (b :: rest)

/-- Every whitespace character is a plain `' '`. -/
def onlyPlainSpaces (l : List Char) : Bool :=
  l.all (fun c => !isJsSpace c || c == ' ')

/-- The first character (if any) is not whitespace. -/
def headNotSpace : List Char → Bool
  | [] => true
  | c :: _ => !isJsSpace c

/-- The outcome of `.replace(/\s+/g, ' ').trim()`: single plain spaces
only, and none at either end. -/
def wsNormalized (s : String) : Bool :=
  noSpaceRun s.data && onlyPlainSpaces s.data && headNotSpace s.data &&
    headNotSpace s.data.reverse

theorem noSpaceRun_tail (a : Char) (l : List Char)
    (h : noSpaceRun (a :: l) = true) : noSpaceRun l = true := by
  cases l with
  | nil => rfl
  | cons b rest =>
    have h2 : (!(isJsSpace a && isJsSpace b) && noSpaceRun (b :: rest)) = true := h
    rw [Bool.and_eq_true] at h2
    exact h2.2

theorem noSpaceRun_cons (c : Char) (l : List Char) (hl : noSpaceRun l = true)
    (hc : isJsSpace c = false ∨ headNotSpace l = true) :
    noSpaceRun (c :: l) = true := by
  cases l with
  | nil => rfl
  | cons x rest =>
    show (!(isJsSpace c && isJsSpace x) && noSpaceRun (x :: rest)) = true
    rw [Bool.and_eq_true]
    refine ⟨?_, hl⟩
    rcases hc with hc | hc
    · simp [hc]
    · have hx : isJsSpace x = false := by
        simpa [headNotSpace] using hc
      simp [hx]

theorem collapseWsAux_plain (l : List Char) :
    ∀ b, onlyPlainSpaces (collapseWsAux b l) = true := by
  induction l with
  | nil => intro b; rfl
  | cons c cs ih =>
    intro b
    rw [collapseWsAux]
    by_cases hc : isJsSpace c = true
    · rw [if_pos hc]
      cases b with
      | true => exact ih true
      | false =>
        simp only [if_neg Bool.false_ne_true]
        simp only [onlyPlainSpaces, List.all_cons, Bool.and_eq_true]
        exact ⟨by simp, ih true⟩
    · rw [if_neg (by simp_all)]
      simp only [onlyPlainSpaces, List.all_cons, Bool.and_eq_true]
      refine ⟨?_, ih false⟩
      have hcf : isJsSpace c = false := by simp_all
      simp [hcf]

theorem collapseWsAux_head_true (l : List Char) :
    headNotSpace (collapseWsAux true l) = true := by
  induction l with
  | nil => rfl
  | cons c cs ih =>
    rw [collapseWsAux]
    by_cases hc : isJsSpace c = true
    · rw [if_pos hc, if_pos rfl]
      exact ih
    · rw [if_neg (by simp_all)]
      simp only [headNotSpace]
      simp_all

theorem collapseWsAux_noRun (l : List Char) :
    ∀ b, noSpaceRun (collapseWsAux b l) = true := by
  induction l with
  | nil => intro b; rfl
  | cons c cs ih =>
    intro b
    rw [collapseWsAux]
    by_cases hc : isJsSpace c = true
    · rw [if_pos hc]
      cases b with
      | true => exact ih true
      | false =>
        simp only [if_neg Bool.false_ne_true]
        exact noSpaceRun_cons ' ' _ (ih true) (Or.inr (collapseWsAux_head_true cs))
    · rw [if_neg (by simp_all)]
      refine noSpaceRun_cons c _ (ih false) (Or.inl ?_)
      simp_all

theorem dropWhile_noRun (l : List Char) (h : noSpaceRun l = true) :
    noSpaceRun (l.dropWhile isJsSpace) = true := by
  induction l with
  | nil => rfl
  | cons c cs ih =>
    rw [List.dropWhile_cons]
    by_cases hc : isJsSpace c = true
    · rw [if_pos hc]
      exact ih (noSpaceRun_tail c cs h)
    · rw [if_neg hc]
      exact h

theorem dropWhile_plain (l : List Char) (h : onlyPlainSpaces l = true) :
    onlyPlainSpaces (l.dropWhile isJsSpace) = true := by
  induction l with
  | nil => rfl
  | cons c cs ih =>
    rw [List.dropWhile_cons]
    simp only [onlyPlainSpaces, List.all_cons, Bool.and_eq_true] at h
    by_cases hc : isJsSpace c = true
    · rw [if_pos hc]
      exact ih h.2
    · rw [if_neg hc]
      simp only [onlyPlainSpaces, List.all_cons, Bool.and_eq_true]
      exact ⟨h.1, h.2⟩

theorem dropWhile_headNotSpace (l : List Char) :
    headNotSpace (l.dropWhile isJsSpace) = true := by
  induction l with
  | nil => rfl
  | cons c cs ih =>
    rw [List.dropWhile_cons]
    by_cases hc : isJsSpace c = true
    · rw [if_pos hc]
      exact ih
    · rw [if_neg hc]
      simp only [headNotSpace]
      simp_all

theorem noSpaceRun_iff_chain (l : List Char) :
    noSpaceRun l = true ↔
      List.Chain' (fun a b => ¬(isJsSpace a = true ∧ isJsSpace b = true)) l := by
  induction l with
  | nil => simp [noSpaceRun]
  | cons a l ih =>
    cases l with
    | nil => simp [noSpaceRun]
    | cons b rest =>
      rw [List.chain'_cons, ← ih]
      show (!(isJsSpace a && isJsSpace b) && noSpaceRun (b :: rest)) = true ↔ _
      rw [Bool.and_eq_true, Bool.not_eq_true', Bool.and_eq_false_iff]
      constructor
      · rintro ⟨h1, h2⟩
        refine ⟨?_, h2⟩
        rintro ⟨ha, hb⟩
        rcases h1 with h | h
        · rw [ha] at h; cases h
        · rw [hb] at h; cases h
      · rintro ⟨h1, h2⟩
        refine ⟨?_, h2⟩
        by_cases ha : isJsSpace a = true
        · by_cases hb : isJsSpace b = true
          · exact absurd ⟨ha, hb⟩ h1
          · right; simpa using hb
        · left; simpa using ha

theorem noSpaceRun_reverse (l : List Char) :
    noSpaceRun l.reverse = noSpaceRun l := by
  rw [Bool.eq_iff_iff, noSpaceRun_iff_chain, noSpaceRun_iff_chain,
    List.chain'_reverse]
  constructor
  · intro h
    exact h.imp (fun a b hab hba => hab ⟨hba.2, hba.1⟩)
  · intro h
    exact h.imp (fun a b hab hba => hab ⟨hba.2, hba.1⟩)

theorem onlyPlainSpaces_reverse (l : List Char) :
    onlyPlainSpaces l.reverse = onlyPlainSpaces l := by
  rw [Bool.eq_iff_iff]
  simp only [onlyPlainSpaces, List.all_eq_true, List.mem_reverse]

theorem dropTrailingWs_noRun (l : List Char) (h : noSpaceRun l = true) :
    noSpaceRun (dropTrailingWs l) = true := by
  rw [dropTrailingWs, noSpaceRun_reverse]
  exact dropWhile_noRun _ (by rw [noSpaceRun_reverse]; exact h)

theorem dropTrailingWs_plain (l : List Char) (h : onlyPlainSpaces l = true) :
    onlyPlainSpaces (dropTrailingWs l) = true := by
  rw [dropTrailingWs, onlyPlainSpaces_reverse]
  exact dropWhile_plain _ (by rw [onlyPlainSpaces_reverse]; exact h)

theorem dropTrailingWs_last (l : List Char) :
    headNotSpace (dropTrailingWs l).reverse = true := by
  rw [dropTrailingWs, List.reverse_reverse]
  exact dropWhile_headNotSpace _

theorem dropTrailingWs_head (l : List Char) (h : headNotSpace l = true) :
    headNotSpace (dropTrailingWs l) = true := by
  cases l with
  | nil => rfl
  | cons c rest =>
    have hc : isJsSpace c = false := by
      simpa [headNotSpace] using h
    rw [dropTrailingWs, List.reverse_cons, List.dropWhile_append]
    by_cases hrest : (rest.reverse.dropWhile isJsSpace).isEmpty = true
    · rw [if_pos hrest]
      simp [List.dropWhile_cons, hc, headNotSpace]
    · rw [if_neg hrest]
      rw [List.reverse_append]
      simp [headNotSpace, hc]

/-! ## Lemmas: digit strings pass untouched through the rest of the chain -/

theorem digitChar_isDigit (d : Nat) : (digitChar d).isDigit = true := by
  unfold digitChar
  repeat' split
  all_goals decide

theorem natToCharsAux_digits (fuel : Nat) :
    ∀ (n : Nat), ∀ c ∈ natToCharsAux fuel n, c.isDigit = true := by
  induction fuel with
  | zero => intro n c hc; cases hc
  | succ fuel ih =>
    intro n c hc
    rw [natToCharsAux] at hc
    by_cases h : n < 10
    · rw [if_pos h] at hc
      simp only [List.mem_singleton] at hc
      subst hc
      exact digitChar_isDigit n
    · rw [if_neg h] at hc
      rcases List.mem_append.mp hc with h1 | h2
      · exact ih (n / 10) c h1
      · simp only [List.mem_singleton] at h2
        subst h2
        exact digitChar_isDigit (n % 10)

theorem natToString_digits (n : Nat) :
    ∀ c ∈ (natToString n).data, c.isDigit = true :=
  natToCharsAux_digits (n + 1) n

theorem padStart0_digits (w : Nat) (s : String)
    (h : ∀ c ∈ s.data, c.isDigit = true) :
    ∀ c ∈ (padStart0 w s).data, c.isDigit = true := by
  intro c hc
  rw [padStart0] at hc
  by_cases hw : w ≤ s.length
  · rw [if_pos hw] at hc
    exact h c hc
  · rw [if_neg hw] at hc
    simp only [String.data_append] at hc
    rcases List.mem_append.mp hc with h1 | h2
    · have : c = '0' := by
        have := List.eq_of_mem_replicate h1
        exact this
      subst this
      decide
    · exact h c h2

theorem isDigit_not_space (c : Char) (h : c.isDigit = true) :
    isJsSpace c = false := by
  by_contra hne
  have hsp : isJsSpace c = true := by
    revert hne
    cases isJsSpace c <;> simp
  simp only [isJsSpace, Bool.or_eq_true, beq_iff_eq] at hsp
  rcases hsp with ((((h1 | h1) | h1) | h1) | h1) | h1 <;>
    (subst h1; exact absurd h (by decide))

theorem isPrefixChars_append_self (pat rest : List Char) :
    isPrefixChars pat (pat ++ rest) = true := by
  induction pat with
  | nil => rfl
  | cons p ps ih =>
    show (p == p && isPrefixChars ps (ps ++ rest)) = true
    rw [ih]
    simp

theorem listReplaceFirst_prefix (pat repl rest : List Char) (h : pat ≠ []) :
    listReplaceFirst pat repl (pat ++ rest) = repl ++ rest := by
  cases pat with
  | nil => exact absurd rfl h
  | cons p ps =>
    rw [List.cons_append, listReplaceFirst,
      if_pos (show isPrefixChars (p :: ps) (p :: (ps ++ rest)) = true from
        isPrefixChars_append_self (p :: ps) rest)]
    congr 1
    show List.drop (ps.length + 1) (p :: (ps ++ rest)) = rest
    rw [List.drop_succ_cons, List.drop_left]

theorem replaceFirst_whole (pat repl : String) (h : pat.data ≠ []) :
    replaceFirst pat pat repl = repl := by
  unfold replaceFirst
  have hp := listReplaceFirst_prefix pat.data repl.data [] h
  rw [List.append_nil] at hp
  rw [hp, List.append_nil]

theorem listReplaceFirst_no_head (pat repl : List Char) (p0 : Char)
    (hp : pat.head? = some p0) :
    ∀ (l : List Char), p0 ∉ l → listReplaceFirst pat repl l = l := by
  intro l
  induction l with
  | nil => intro _; rfl
  | cons c cs ih =>
    intro hno
    have hnc : p0 ≠ c := fun he => hno (he ▸ List.mem_cons_self c cs)
    have hncs : p0 ∉ cs := fun hm => hno (List.mem_cons_of_mem c hm)
    rw [listReplaceFirst]
    have hpre : isPrefixChars pat (c :: cs) = false := by
      cases pat with
      | nil => cases hp
      | cons p ps =>
        have hpp : p = p0 := Option.some.inj hp
        show (p == c && isPrefixChars ps cs) = false
        have : (p == c) = false := by
          rw [beq_eq_false_iff_ne, hpp]
          exact hnc
        rw [this]
        rfl
    rw [hpre]
    simp only [Bool.false_eq_true, if_false]
    rw [ih hncs]

theorem replaceFirst_digits (s pat repl : String)
    (hp : pat.data.head? = some '\x7b')
    (hs : ∀ c ∈ s.data, c.isDigit = true) : replaceFirst s pat repl = s := by
  unfold replaceFirst
  rw [listReplaceFirst_no_head pat.data repl.data '\x7b' hp s.data ?_]
  · intro hmem
    exact absurd (hs _ hmem) (by decide)

theorem collapseWsAux_id (l : List Char) (h : ∀ c ∈ l, isJsSpace c = false) :
    ∀ b, collapseWsAux b l = l := by
  induction l with
  | nil => intro b; rfl
  | cons c cs ih =>
    intro b
    rw [collapseWsAux, if_neg (by rw [h c (List.mem_cons_self c cs)]; simp)]
    rw [ih (fun x hx => h x (List.mem_cons_of_mem c hx)) false]

theorem dropWhile_id (l : List Char) (h : ∀ c ∈ l, isJsSpace c = false) :
    l.dropWhile isJsSpace = l := by
  cases l with
  | nil => rfl
  | cons c cs =>
    rw [List.dropWhile_cons, if_neg (by rw [h c (List.mem_cons_self c cs)]; simp)]

theorem dropTrailingWs_id (l : List Char) (h : ∀ c ∈ l, isJsSpace c = false) :
    dropTrailingWs l = l := by
  rw [dropTrailingWs, dropWhile_id _ (fun c hc => h c (List.mem_reverse.mp hc)),
    List.reverse_reverse]

theorem collapseWsS_digits (s : String) (h : ∀ c ∈ s.data, c.isDigit = true) :
    collapseWsS s = s := by
  unfold collapseWsS
  rw [collapseWsAux_id s.data (fun c hc => isDigit_not_space c (h c hc)) false]

theorem jsTrimS_digits (s : String) (h : ∀ c ∈ s.data, c.isDigit = true) :
    jsTrimS s = s := by
  unfold jsTrimS
  have hns : ∀ c ∈ s.data, isJsSpace c = false :=
    fun c hc => isDigit_not_space c (h c hc)
  rw [dropWhile_id s.data hns, dropTrailingWs_id s.data hns]

/-! ## Concrete data for examples, witnesses and counterexamples -/

/-- Metadata candidate with romaji title `"Example"` and no year. -/
def exAnime : AniListResponse := { id := 1, title := { romaji := some "Example" } }

/-- Metadata candidate with romaji title `"X"` and no year. -/
def exTitleX : AniListResponse := { id := 2, title := { romaji := some "X" } }

/-- A video file as built by the file selector. -/
def exVideo (p n : String) : FileInfo :=
  { path := p, name := n, size := 0, file_type := "mkv",
    is_video := true, is_subtitle := false }

/-- A subtitle file as built by the file selector. -/
def exSubtitle (p n : String) : FileInfo :=
  { path := p, name := n, size := 0, file_type := "ass",
    is_video := false, is_subtitle := true }

/-- A file that is neither video nor subtitle. -/
def exOther : FileInfo :=
  { path := "/a/readme.txt", name := "readme.txt", size := 7,
    file_type := "txt", is_video := false, is_subtitle := false }

/-- The end-to-end batch of the specification:
`[X-01.mkv, X-02.mkv, X.chs.ass]`. -/
def exBatch : List FileInfo :=
  [exVideo "/a/X-01.mkv" "X-01.mkv", exVideo "/a/X-02.mkv" "X-02.mkv",
   exSubtitle "/a/X.chs.ass" "X.chs.ass"]

/-- A video whose parse hint exists but carries neither season nor group,
while the filename itself matches both regex fallbacks. -/
def c7file : FileInfo :=
  { path := "/a/Show S2 [Grp] E01.mkv", name := "Show S2 [Grp] E01.mkv",
    size := 0, file_type := "mkv", is_video := true, is_subtitle := false,
    parsed := some { anime_title := "Show" } }

/-- `AnimeInfo` with no year (for the folder builder). -/
def exInfoNoYear : AnimeInfo := { title := "Example" }

theorem mem_sorted_group_subPairs (files : List FileInfo)
    (g : String × List (Nat × FileInfo)) (hg : g ∈ sortedSubtitleGroups files)
    (q : Nat × FileInfo) (hq : q ∈ g.2) : q ∈ subPairs files := by
  have hfl : q ∈ ((sortedSubtitleGroups files).map Prod.snd).flatten :=
    List.mem_flatten.mpr ⟨g.2, List.mem_map_of_mem Prod.snd hg, hq⟩
  exact (sortedSubtitleGroups_flatten_perm files).mem_iff.mp hfl

theorem wsNormalized_trim_collapse (s : String) :
    wsNormalized (jsTrimS (collapseWsS s)) = true := by
  have h0run : noSpaceRun (collapseWsAux false s.data) = true :=
    collapseWsAux_noRun s.data false
  have h0pl : onlyPlainSpaces (collapseWsAux false s.data) = true :=
    collapseWsAux_plain s.data false
  have h1run := dropWhile_noRun _ h0run
  have h1pl := dropWhile_plain _ h0pl
  have h1hd := dropWhile_headNotSpace (collapseWsAux false s.data)
  have h2run := dropTrailingWs_noRun _ h1run
  have h2pl := dropTrailingWs_plain _ h1pl
  have h2hd := dropTrailingWs_head _ h1hd
  have h2last :=
    dropTrailingWs_last ((collapseWsAux false s.data).dropWhile isJsSpace)
  show (noSpaceRun (dropTrailingWs ((collapseWsAux false s.data).dropWhile isJsSpace)) &&
      onlyPlainSpaces (dropTrailingWs ((collapseWsAux false s.data).dropWhile isJsSpace)) &&
      headNotSpace (dropTrailingWs ((collapseWsAux false s.data).dropWhile isJsSpace)) &&
      headNotSpace (dropTrailingWs ((collapseWsAux false s.data).dropWhile isJsSpace)).reverse)
    = true
  rw [h2run, h2pl, h2hd, h2last]
  rfl

/-! ## The claims -/

/-- C1: the planning transformation is deterministic and idempotent — for a
fixed file set, metadata candidate and naming configuration, the plan equals
itself, and re-planning over an already-planned working set reproduces the
identical plan (destination names and previews). -/
theorem plan_deterministic_and_idempotent (files : List FileInfo)
    (d : AniListResponse) (tmpl subSuffix : String) :
    applyMetadata files d tmpl subSuffix = applyMetadata files d tmpl subSuffix ∧
    applyMetadata (applyMetadata files d tmpl subSuffix) d tmpl subSuffix =
      applyMetadata files d tmpl subSuffix := by
  refine ⟨rfl, ?_⟩
  have hcore := coreEq_applyMetadata files d tmpl subSuffix
  have hW := allWrites_congr_core files (applyMetadata files d tmpl subSuffix)
    d tmpl subSuffix hcore
  show setFold (applyMetadata files d tmpl subSuffix)
      (allWrites (applyMetadata files d tmpl subSuffix) d tmpl subSuffix) =
    applyMetadata files d tmpl subSuffix
  rw [← hW]
  apply List.ext_getElem?
  intro j
  rw [getq_setFold]
  cases hl : lastWriteAt (allWrites files d tmpl subSuffix) j with
  | none => simp
  | some v =>
    simp only [Option.elim_some]
    have hlen : (applyMetadata files d tmpl subSuffix).length = files.length :=
      applyMetadata_length files d tmpl subSuffix
    have hrhs : (applyMetadata files d tmpl subSuffix)[j]? =
        if j < files.length then some v else none := by
      rw [applyMetadata, getq_setFold, hl]
      rfl
    rw [hrhs, hlen]

/-- C10: applying a metadata candidate only writes to video and subtitle
files; a file whose role flags are both false comes out of `applyMetadata`
exactly as it went in, all fields included. -/
theorem non_media_files_untouched (files : List FileInfo) (d : AniListResponse)
    (tmpl subSuffix : String) (j : Nat) (fj : FileInfo)
    (hfj : files[j]? = some fj) (hv : fj.is_video = false)
    (hs : fj.is_subtitle = false) :
    (applyMetadata files d tmpl subSuffix)[j]? = some fj := by
  have hmiss : ∀ w ∈ allWrites files d tmpl subSuffix, w.1 ≠ j := by
    intro w hw hwj
    rcases List.mem_append.mp hw with hmv | hms
    · obtain ⟨k, p, heq, hget, hvid⟩ := mem_videoWrites files d tmpl w hmv
      have hp1 : p.1 = j := by rw [← congrArg Prod.fst heq]; exact hwj
      rw [hp1, hfj] at hget
      have hpf : fj = p.2 := Option.some.inj hget
      rw [← hpf] at hvid
      rw [hv] at hvid
      cases hvid
    · obtain ⟨k, key, p, heq, hget, hsub⟩ :=
        mem_subtitleWrites files d tmpl subSuffix w hms
      have hp1 : p.1 = j := by rw [← congrArg Prod.fst heq]; exact hwj
      rw [hp1, hfj] at hget
      have hpf : fj = p.2 := Option.some.inj hget
      rw [← hpf] at hsub
      rw [hs] at hsub
      cases hsub
  rw [applyMetadata, getq_setFold, lwa_eq_none _ _ hmiss]
  simpa using hfj

theorem non_media_files_untouched_witness :
    (applyMetadata [exOther] exAnime "{title}" ".chs")[0]? = some exOther :=
  non_media_files_untouched [exOther] exAnime "{title}" ".chs" 0 exOther
    rfl rfl rfl

/-- C9: a parse failure is per-file and non-fatal — replacing one file's
parse hint by `none` (the recorded effect of a failed parse) never aborts
planning (the plan still covers the whole batch) and leaves the computed
result of every other file unchanged. -/
theorem parse_failure_is_per_file (files : List FileInfo) (d : AniListResponse)
    (tmpl subSuffix : String) (i : Nat) (fi : FileInfo)
    (hfi : files[i]? = some fi) (j : Nat) (hj : j ≠ i) :
    (applyMetadata (files.set i { fi with parsed := none }) d tmpl subSuffix).length
        = files.length ∧
    (applyMetadata (files.set i { fi with parsed := none }) d tmpl subSuffix)[j]? =
      (applyMetadata files d tmpl subSuffix)[j]? := by
  constructor
  · rw [applyMetadata_length, List.length_set]
  · have hbase := forall2_enumFrom_set { fi with parsed := none } files 0 i ?hfl
    case hfl =>
      intro fj hfj2
      rw [hfi] at hfj2
      have hfe : fi = fj := Option.some.inj hfj2
      rw [← hfe]
      exact ⟨rfl, rfl, rfl⟩
    simp only [Nat.zero_add] at hbase
    have hW := allWrites_congr_off files (files.set i { fi with parsed := none })
      i d tmpl subSuffix hbase
    have hlwa := lwa_congr_off i j hj hW
    rw [applyMetadata, applyMetadata, getq_setFold, getq_setFold, ← hlwa]
    cases lastWriteAt (allWrites files d tmpl subSuffix) j with
    | none =>
      simp only [Option.elim_none]
      exact getq_set_ne files i j _ (fun h => hj h.symm)
    | some v =>
      simp only [Option.elim_some, List.length_set]

theorem parse_failure_is_per_file_witness :
    (applyMetadata ([c7file, exVideo "/a/A.mkv" "A.mkv"].set 0
        { c7file with parsed := none }) exAnime "{title_romaji} - {episode:02}"
        ".chs").length = 2 ∧
    (applyMetadata ([c7file, exVideo "/a/A.mkv" "A.mkv"].set 0
        { c7file with parsed := none }) exAnime "{title_romaji} - {episode:02}"
        ".chs")[1]? =
      (applyMetadata [c7file, exVideo "/a/A.mkv" "A.mkv"] exAnime
        "{title_romaji} - {episode:02}" ".chs")[1]? :=
  parse_failure_is_per_file [c7file, exVideo "/a/A.mkv" "A.mkv"] exAnime
    "{title_romaji} - {episode:02}" ".chs" 0 c7file rfl 1 (by decide)

/-- C5: video files are ordered by a total, case-sensitive lexicographic
comparison of display name and assigned episode numbers 1..N in that sorted
order (position `k` gets episode `k + 1`), regardless of any episode value
in a parse hint; the sorted sequence is exactly a permutation of the video
files. -/
theorem videos_sequenced_lexicographically (files : List FileInfo)
    (d : AniListResponse) (tmpl subSuffix : String)
    (hdisj : ∀ f ∈ files, ¬(f.is_video = true ∧ f.is_subtitle = true)) :
    List.Pairwise (fun p q : Nat × FileInfo => nameLe p.2.name q.2.name = true)
      (videoPairs files) ∧
    (videoPairs files).Perm ((enumFrom 0 files).filter (fun p => p.2.is_video)) ∧
    ∀ (k : Nat) (h : k < (videoPairs files).length),
      ((applyMetadata files d tmpl subSuffix)[((videoPairs files).get ⟨k, h⟩).1]?.bind
        FileInfo.metadata).bind AnimeInfo.episode = some (k + 1) := by
  refine ⟨pairwise_sortByLe _, sortByLe_perm pairLe _, ?_⟩
  intro k h
  rw [video_write_hits files d tmpl subSuffix hdisj k h]
  simp [processVideo, mkAnimeInfo]

theorem videos_sequenced_lexicographically_witness :
    ((applyMetadata [exVideo "/b" "B.mkv", exVideo "/a" "A.mkv"] exAnime
        "{title_romaji} - {episode:02}" ".chs")[(((videoPairs
        [exVideo "/b" "B.mkv", exVideo "/a" "A.mkv"]).get ⟨0, by decide⟩)).1]?.bind
      FileInfo.metadata).bind AnimeInfo.episode = some 1 :=
  (videos_sequenced_lexicographically [exVideo "/b" "B.mkv", exVideo "/a" "A.mkv"]
    exAnime "{title_romaji} - {episode:02}" ".chs" (by decide)).2.2 0 (by decide)

/-- C6: subtitle files are partitioned by the classifier key, each group is
sorted by the same name comparison and numbered 1..M independently
(position `k` of a group gets episode `k + 1`); the groups partition
exactly the subtitle files.  End to end, `[X-01.mkv, X-02.mkv, X.chs.ass]`
with template `"{title_romaji} - {episode:02}"` and candidate
`title_romaji = "Example"` yields `"Example - 01.mkv"`, `"Example - 02.mkv"`
and `"Example - 01.chs.ass"`. -/
theorem subtitles_grouped_and_sequenced :
    (∀ (files : List FileInfo) (d : AniListResponse) (tmpl subSuffix : String),
      (∀ g ∈ sortedSubtitleGroups files,
        (∀ q ∈ g.2, q.2.is_subtitle = true ∧ classifyKey q.2.name = g.1) ∧
        List.Pairwise (fun p q : Nat × FileInfo => nameLe p.2.name q.2.name = true)
          g.2 ∧
        ∀ (k : Nat) (h : k < g.2.length),
          ((applyMetadata files d tmpl subSuffix)[(g.2.get ⟨k, h⟩).1]?.bind
            FileInfo.metadata).bind AnimeInfo.episode = some (k + 1)) ∧
      (((sortedSubtitleGroups files).map Prod.snd).flatten).Perm
        ((enumFrom 0 files).filter (fun p => p.2.is_subtitle))) ∧
    (applyMetadata exBatch exAnime "{title_romaji} - {episode:02}" ".chs").map
        FileInfo.new_name =
      [some "Example - 01.mkv", some "Example - 02.mkv",
        some "Example - 01.chs.ass"] := by
  constructor
  · intro files d tmpl subSuffix
    constructor
    · intro g hg
      refine ⟨?_, ?_, ?_⟩
      · intro q hq
        exact ⟨(mem_subPairs files q (mem_sorted_group_subPairs files g hg q hq)).2,
          groupsKeyed_sorted files g hg q hq⟩
      · obtain ⟨g0, hg0, hgg⟩ := List.mem_map.mp hg
        rw [← hgg]
        exact pairwise_sortByLe g0.2
      · intro k h
        rw [subtitle_write_hits files d tmpl subSuffix g hg k h]
        simp [processSubtitle, mkAnimeInfo]
    · exact sortedSubtitleGroups_flatten_perm files
  · decide

theorem subtitles_grouped_and_sequenced_witness :
    ((applyMetadata exBatch exAnime "{title_romaji} - {episode:02}"
        ".chs")[((((sortedSubtitleGroups exBatch).get ⟨0, by decide⟩)).2.get
        ⟨0, by decide⟩).1]?.bind FileInfo.metadata).bind AnimeInfo.episode =
      some 1 :=
  ((subtitles_grouped_and_sequenced.1 exBatch exAnime
      "{title_romaji} - {episode:02}" ".chs").1
    ((sortedSubtitleGroups exBatch).get ⟨0, by decide⟩)
    (List.get_mem _ 0 (by decide))).2.2 0 (by decide)

/-- C7 counterexample: a file whose parse hint exists but carries no season
and no group.  The claim says the filename scans (`S<digits>`, first
`[...]` token) then apply — they would give season 2 and group `"Grp"` —
but the code skips them whenever a hint object exists at all: the season
becomes 1 and the group resolves to nothing (template `"{group}"` yields
just `".mkv"`). -/
theorem season_fallback_skipped_counterexample :
    seasonScanName c7file.name = some 2 ∧
    groupScanName c7file.name = some "Grp" ∧
    (applyMetadata [c7file] exAnime "{season}" ".chs").map
      (fun f => f.metadata.bind AnimeInfo.season) = [some 1] ∧
    (applyMetadata [c7file] exAnime "{group}" ".chs").map FileInfo.new_name =
      [some ".mkv"] :=
  ⟨by decide, by decide, by decide, by decide⟩

/-- C7 amended: the two-tier fallback is keyed on the presence of the whole
parse hint object, not of its fields — when a hint exists its `season` /
`group` fields are used as they are (season defaulting to 1 when absent or
zero, group to nothing), and the filename scans run only when no hint
exists at all; the video at sorted position `k` is planned with exactly
that season and group. -/
theorem season_group_fallback_amended (files : List FileInfo)
    (d : AniListResponse) (tmpl subSuffix : String)
    (hdisj : ∀ f ∈ files, ¬(f.is_video = true ∧ f.is_subtitle = true))
    (k : Nat) (h : k < (videoPairs files).length) :
    (((applyMetadata files d tmpl subSuffix)[((videoPairs files).get ⟨k, h⟩).1]?.bind
        FileInfo.metadata).bind AnimeInfo.season) =
      some (natOr (match ((videoPairs files).get ⟨k, h⟩).2.parsed with
        | some pr => pr.season
        | none => seasonScanName ((videoPairs files).get ⟨k, h⟩).2.name) 1) ∧
    ((applyMetadata files d tmpl subSuffix)[((videoPairs files).get ⟨k, h⟩).1]?.bind
        FileInfo.new_name) =
      some (addExt (genBaseName tmpl d (k + 1)
        (match ((videoPairs files).get ⟨k, h⟩).2.parsed with
          | some pr => pr.season
          | none => seasonScanName ((videoPairs files).get ⟨k, h⟩).2.name)
        (match ((videoPairs files).get ⟨k, h⟩).2.parsed with
          | some pr => pr.group
          | none => groupScanName ((videoPairs files).get ⟨k, h⟩).2.name))
        ((videoPairs files).get ⟨k, h⟩).2.file_type) := by
  rw [video_write_hits files d tmpl subSuffix hdisj k h]
  constructor
  · simp [processVideo, mkAnimeInfo, seasonOf]
  · simp [processVideo, seasonOf, groupOf]

theorem season_group_fallback_amended_witness :
    ((applyMetadata [c7file] exAnime "{season}" ".chs")[((videoPairs
        [c7file]).get ⟨0, by decide⟩).1]?.bind FileInfo.metadata).bind
      AnimeInfo.season = some 1 :=
  ((season_group_fallback_amended [c7file] exAnime "{season}" ".chs"
    (by decide) 0 (by decide)).1).trans (by decide)

/-- C2 counterexample: resolving `"{title} ({year})"` with title `"X"` and
no year yields `"X ()"` — the whitespace collapse does not remove the
empty parentheses, contrary to the claimed guarantee of `"X"`. -/
theorem resolve_title_year_counterexample :
    genBaseName "{title} ({year})" exTitleX 1 none none = "X ()" ∧
    genBaseName "{title} ({year})" exTitleX 1 none none ≠ "X" :=
  ⟨by decide, by decide⟩

/-- C2 amended: template resolution does collapse whitespace runs to a
single plain space and trims both ends of the result, but this does not
remove empty parentheses: `"{title} ({year})"` with title `"X"` and no
year resolves to `"X ()"`, not `"X"`. -/
theorem resolve_whitespace_collapse_amended (tmpl : String)
    (d : AniListResponse) (ep : Nat) (sn : Option Nat) (grp : Option String) :
    wsNormalized (genBaseName tmpl d ep sn grp) = true ∧
    genBaseName "{title} ({year})" exTitleX 1 none none = "X ()" := by
  refine ⟨?_, by decide⟩
  show wsNormalized (jsTrimS (collapseWsS _)) = true
  exact wsNormalized_trim_collapse _

/-- C3 counterexample: the bare `{season}` placeholder is substituted
without padding — season 5 gives `"5"`, not `"05"`. -/
theorem bare_season_unpadded_counterexample :
    genBaseName "{season}" exAnime 1 (some 5) none = "5" ∧
    genBaseName "{season}" exAnime 1 (some 5) none ≠ "05" :=
  ⟨by decide, by decide⟩

/-- Whether `pat` occurs anywhere in the list. -/
def hasMatch (pat : List Char) : List Char → Bool
  | [] => false
  | c :: cs => isPrefixChars pat (c :: cs) || hasMatch pat cs

theorem listReplaceFirst_of_no_match (pat repl : List Char) :
    ∀ l, hasMatch pat l = false → listReplaceFirst pat repl l = l := by
  intro l
  induction l with
  | nil => intro _; rfl
  | cons c cs ih =>
    intro h
    rw [hasMatch, Bool.or_eq_false_iff] at h
    rw [listReplaceFirst, if_neg (by rw [h.1]; simp), ih h.2]

theorem replaceFirst_of_no_match (s pat repl : String)
    (h : hasMatch pat.data s.data = false) : replaceFirst s pat repl = s := by
  unfold replaceFirst
  rw [listReplaceFirst_of_no_match pat.data repl.data s.data h]

/-- C3 amended: the bare `{episode}` placeholder zero-pads to width 2 for
every episode number (and `{episode:03}` to width 3: episode 5 gives
`"05"` and `"005"`), but the bare `{season}` placeholder is substituted as
the unpadded decimal: season 5 gives `"5"`. -/
theorem numeric_placeholder_widths_amended :
    (∀ ep : Nat, genBaseName "{episode}" exAnime ep none none =
      padStart0 2 (natToString ep)) ∧
    (∀ ep : Nat, genBaseName "{episode:03}" exAnime ep none none =
      padStart0 3 (natToString ep)) ∧
    genBaseName "{episode}" exAnime 5 none none = "05" ∧
    (∀ sv : Nat, sv ≠ 0 → genBaseName "{season}" exAnime 1 (some sv) none =
      natToString sv) ∧
    genBaseName "{season}" exAnime 1 (some 5) none = "5" := by
  refine ⟨?_, ?_, by decide, ?_, by decide⟩
  · intro ep
    have hdig : ∀ c ∈ (padStart0 2 (natToString ep)).data, c.isDigit = true :=
      padStart0_digits 2 _ (natToString_digits ep)
    simp only [genBaseName]
    rw [replaceFirst_of_no_match _ "{title}" _ (by decide)]
    rw [replaceFirst_of_no_match _ "{title_romaji}" _ (by decide)]
    rw [replaceFirst_of_no_match _ "{title_english}" _ (by decide)]
    rw [replaceFirst_whole "{episode}" _ (by decide)]
    rw [replaceFirst_digits _ "{episode:02}" _ (by decide) hdig]
    rw [replaceFirst_digits _ "{episode:03}" _ (by decide) hdig]
    rw [replaceFirst_digits _ "{season}" _ (by decide) hdig]
    rw [replaceFirst_digits _ "{year}" _ (by decide) hdig]
    rw [replaceFirst_digits _ "{group}" _ (by decide) hdig]
    rw [collapseWsS_digits _ hdig, jsTrimS_digits _ hdig]
  · intro ep
    have hdig : ∀ c ∈ (padStart0 3 (natToString ep)).data, c.isDigit = true :=
      padStart0_digits 3 _ (natToString_digits ep)
    simp only [genBaseName]
    rw [replaceFirst_of_no_match _ "{title}" _ (by decide)]
    rw [replaceFirst_of_no_match _ "{title_romaji}" _ (by decide)]
    rw [replaceFirst_of_no_match _ "{title_english}" _ (by decide)]
    rw [replaceFirst_of_no_match _ "{episode}" _ (by decide)]
    rw [replaceFirst_of_no_match _ "{episode:02}" _ (by decide)]
    rw [replaceFirst_whole "{episode:03}" _ (by decide)]
    rw [replaceFirst_digits _ "{season}" _ (by decide) hdig]
    rw [replaceFirst_digits _ "{year}" _ (by decide) hdig]
    rw [replaceFirst_digits _ "{group}" _ (by decide) hdig]
    rw [collapseWsS_digits _ hdig, jsTrimS_digits _ hdig]
  · intro sv hsv
    have hsea : seasonStr (some sv) = natToString sv := by
      simp [seasonStr, hsv]
    have hdig : ∀ c ∈ (natToString sv).data, c.isDigit = true :=
      natToString_digits sv
    simp only [genBaseName]
    rw [replaceFirst_of_no_match _ "{title}" _ (by decide)]
    rw [replaceFirst_of_no_match _ "{title_romaji}" _ (by decide)]
    rw [replaceFirst_of_no_match _ "{title_english}" _ (by decide)]
    rw [replaceFirst_of_no_match _ "{episode}" _ (by decide)]
    rw [replaceFirst_of_no_match _ "{episode:02}" _ (by decide)]
    rw [replaceFirst_of_no_match _ "{episode:03}" _ (by decide)]
    rw [hsea, replaceFirst_whole "{season}" _ (by decide)]
    rw [replaceFirst_digits _ "{year}" _ (by decide) hdig]
    rw [replaceFirst_digits _ "{group}" _ (by decide) hdig]
    rw [collapseWsS_digits _ hdig, jsTrimS_digits _ hdig]

theorem numeric_placeholder_widths_amended_witness :
    genBaseName "{episode}" exAnime 7 none none = padStart0 2 (natToString 7) ∧
    genBaseName "{season}" exAnime 1 (some 3) none = natToString 3 :=
  ⟨numeric_placeholder_widths_amended.1 7,
    numeric_placeholder_widths_amended.2.2.2.1 3 (by decide)⟩

/-- C4 counterexample: `"Show..ass"` splits into 3 segments whose
second-to-last is empty; the claim then requires the key `""`, but the
grouping maps an empty suffix to the sentinel `"default"`. -/
theorem classify_empty_segment_counterexample :
    ((splitOnDot "Show..ass".data).map String.mk).length = 3 ∧
    ((splitOnDot "Show..ass".data).map String.mk).getD 1 "" = "" ∧
    classifyKey "Show..ass" = "default" ∧ classifyKey "Show..ass" ≠ "" :=
  ⟨by decide, by decide, by decide, by decide⟩

/-- C4 amended: splitting on `.`, the grouping key is the second-to-last
segment when there are at least 3 segments and that segment is nonempty,
and the sentinel `"default"` otherwise; in particular
`classify("Show.ass") = "default"`, `classify("Show.chs.ass") = "chs"`,
`classify("Show.chs.hi.ass") = "hi"`. -/
theorem classify_key_amended :
    (∀ filename : String,
      classifyKey filename =
        if 3 ≤ ((splitOnDot filename.data).map String.mk).length ∧
            ((splitOnDot filename.data).map String.mk).getD
              (((splitOnDot filename.data).map String.mk).length - 2) "" ≠ ""
        then ((splitOnDot filename.data).map String.mk).getD
          (((splitOnDot filename.data).map String.mk).length - 2) ""
        else "default") ∧
    classifyKey "Show.ass" = "default" ∧ classifyKey "Show.chs.ass" = "chs" ∧
    classifyKey "Show.chs.hi.ass" = "hi" := by
  refine ⟨?_, by decide, by decide, by decide⟩
  intro filename
  have hext : extractSubtitleSuffix filename =
      (if 3 ≤ ((splitOnDot filename.data).map String.mk).length
       then ((splitOnDot filename.data).map String.mk).getD
         (((splitOnDot filename.data).map String.mk).length - 2) ""
       else "") := rfl
  have hcls : classifyKey filename =
      (if extractSubtitleSuffix filename = "" then "default"
       else extractSubtitleSuffix filename) := rfl
  by_cases h3 : 3 ≤ ((splitOnDot filename.data).map String.mk).length
  · by_cases he : ((splitOnDot filename.data).map String.mk).getD
        (((splitOnDot filename.data).map String.mk).length - 2) "" = ""
    · rw [hcls, hext, if_pos h3, if_pos he, if_neg (fun hc => hc.2 he)]
    · rw [hcls, hext, if_pos h3, if_neg he, if_pos ⟨h3, he⟩]
  · rw [hcls, hext, if_neg h3, if_pos rfl, if_neg (fun hc => h3 hc.1)]

/-- C8 counterexample: with the year absent, only the parenthesised
`"({year})"` fragment is stripped from the anime-folder name — a bare
`{year}` token survives literally: template `"{title} {year}"` with title
`"Example"` and no year yields `"Example {year}"`, not `"Example"`. -/
theorem bare_year_token_counterexample :
    buildAnimeFolder "{title} {year}" exInfoNoYear = "Example {year}" ∧
    buildAnimeFolder "{title} {year}" exInfoNoYear ≠ "Example" :=
  ⟨by decide, by decide⟩

/-- C8 amended: with the year absent, the folder builder strips the
fragment `" ({year})"` (or `"({year})"` without the leading space) rather
than leaving empty parentheses, but a bare `{year}` token not wrapped in
parentheses is left in the folder name literally; with a year present,
`{year}` is substituted. -/
theorem anime_folder_year_strip_amended :
    buildAnimeFolder "{title} ({year})" exInfoNoYear = "Example" ∧
    buildAnimeFolder "({year}) {title}" exInfoNoYear = " Example" ∧
    buildAnimeFolder "{title} {year}" exInfoNoYear = "Example {year}" ∧
    buildAnimeFolder "{title} ({year})"
      { title := "Example", year := some 2020 } = "Example (2020)" :=
  ⟨by decide, by decide, by decide, by decide⟩
